import Mathlib

/-!
# A verification development for `pyroscope-golang`

Shallow embedding of

* `godeltaprof/internal/pprof/map.go` : `profMap`, `profMapEntry`, `profMap.Lookup`;
* `pyroscope/api.go` : `Config`, the part of `Start` that builds the session configuration.

## Memory model of `map.go`

Go pointers and slices are modelled over two flat heaps with a bump allocator:

* `ents : Nat → profMapEntry` with frontier `entTop` holds every `profMapEntry` record ever
  allocated by `make([]profMapEntry, 128)`; a `*profMapEntry` is `Option Nat`, `none` being `nil`;
* `stks : Nat → Nat` with frontier `stkTop` holds every address slot ever allocated by
  `make([]uintptr, 1024)`.

A slice is a header `(off, len, cap)` into one of the heaps.  Every operation of Go that can
panic (index, slice expression, nil dereference, write to a nil map) is checked in the model and
yields a `Fault`.  `uintptr` is the 64-bit machine word: values are naturals below `2 ^ 64`, and
arithmetic on the hash is reduced modulo `2 ^ 64` explicitly.  Addresses and tags are compared
and stored as they are, so the theorems, which quantify over all naturals, hold in particular
for every `uintptr` value.

## Layout

Definitions come first (the embedding of `map.go`, then of `api.go`), then the properties:
helper lemmas, the representation invariant `Inv` with its preservation by `Lookup`
(`Lookup_hit`, `Lookup_miss`, `Lookup_post`), and the theorems for the claims.
-/

namespace Pprof

/-! ## Data model -/

/-- Ways in which a call does not return normally. -/
inductive Fault where
  | nilDeref
  | indexRange
  | sliceBounds
  | nilMapWrite
  | noReturn
  deriving DecidableEq, Repr

/-- A Go slice header: offset of the first element in its heap, length and capacity. -/
structure Slice where
  off : Nat
  len : Nat
  cap : Nat
  deriving DecidableEq, Repr

/-- The nil slice. -/
def Slice.nil : Slice := ⟨0, 0, 0⟩

/-- Go `s[lo:]`: panics unless `lo ≤ len(s)`. -/
def Slice.drop (s : Slice) (lo : Nat) : Except Fault Slice :=
  if lo ≤ s.len then .ok ⟨s.off + lo, s.len - lo, s.cap - lo⟩ else .error .sliceBounds

/-- Go `s[:hi:mx]`: panics unless `hi ≤ mx ≤ cap(s)`. -/
def Slice.take3 (s : Slice) (hi mx : Nat) : Except Fault Slice :=
  if hi ≤ mx ∧ mx ≤ s.cap then .ok ⟨s.off, hi, mx⟩ else .error .sliceBounds

/-- Go `type count struct { v1, v2 int64 }`. -/
structure count where
  v1 : Int
  v2 : Int
  deriving DecidableEq, Repr

/-- Go `type profMapEntry struct`. -/
structure profMapEntry where
  nextHash : Option Nat
  nextAll : Option Nat
  stk : Slice
  tag : Nat
  prev : count
  acc : count
  acc2 : count
  deriving DecidableEq, Repr

/-- The zero value of `profMapEntry`, as produced by `make`. -/
def zeroEntry : profMapEntry :=
  ⟨none, none, Slice.nil, 0, ⟨0, 0⟩, ⟨0, 0⟩, ⟨0, 0⟩⟩

/-- Go `type profMap struct`.  `hash = none` is the nil map; a map lookup of an absent key
yields `none` (the nil pointer). -/
structure profMap where
  hash : Option (Nat → Option Nat)
  all : Option Nat
  last : Option Nat
  free : Slice
  freeStk : Slice

/-- A `profMap` together with the two heaps its pointers and slices refer to. -/
structure State where
  m : profMap
  ents : Nat → profMapEntry
  entTop : Nat
  stks : Nat → Nat
  stkTop : Nat

/-- The zero-value map over empty heaps. -/
def State.empty : State :=
  { m := ⟨none, none, none, Slice.nil, Slice.nil⟩
    ents := fun _ => zeroEntry
    entTop := 0
    stks := fun _ => 0
    stkTop := 0 }

/-! ## The hash of `(stk, tag)` -/

/-- `unsafe.Sizeof(h)` for `h : uintptr` on a 64-bit machine. -/
def sizeofUintptr : Nat := 8

/-- Number of values of a `uintptr`. -/
def wordMod : Nat := 2 ^ (8 * sizeofUintptr)

/-- Lines 40-41 (and 43-44):
`h = h<<8 | (h >> (8 * (unsafe.Sizeof(h) - 1)))` followed by `h += uintptr(x) * 41`. -/
def hashStep (h x : Nat) : Nat :=
  let h1 := ((h <<< 8) % wordMod) ||| (h >>> (8 * (sizeofUintptr - 1)))
  (h1 + (x * 41) % wordMod) % wordMod

/-- Lines 38-44: the bucket key computed for `(stk, tag)`. -/
def hashOf (stk : List Nat) (tag : Nat) : Nat :=
  hashStep (stk.foldl hashStep 0) tag

/-! ## `Lookup` -/

/-- Go `m.hash[h]` as an rvalue: reading a nil map or an absent key gives nil. -/
def hashGet (hash : Option (Nat → Option Nat)) (h : Nat) : Option Nat :=
  match hash with
  | none => none
  | some f => f h

/-- Lines 53-57: `for j := range stk { if e.stk[j] != uintptr(stk[j]) { continue Search } }`,
started at index `j`.  `true` when the loop runs to its end. -/
def sameStk (mem : Nat → Nat) (es : Slice) : List Nat → Nat → Except Fault Bool
  | [], _ => .ok true
  | x :: xs, j =>
    if j < es.len then
      if mem (es.off + j) ≠ x then .ok false else sameStk mem es xs (j + 1)
    else .error .indexRange

/-- Lines 49-65, the `Search` loop up to the point where an entry is found: `some (last, e)` on
a hit, `none` when the loop ends with `e == nil`.  The loop has no bound in the source; the model
walks at most `fuel` nodes and reports `noReturn` beyond that. -/
def search (s : State) (stk : List Nat) (tag : Nat) :
    Nat → Option Nat → Option Nat → Except Fault (Option (Option Nat × Nat))
  | _, _, none => .ok none
  | 0, _, some _ => .error .noReturn
  | fuel + 1, last, some e =>
    if (s.ents e).stk.len ≠ stk.length ∨ (s.ents e).tag ≠ tag then
      search s stk tag fuel (some e) (s.ents e).nextHash
    else
      match sameStk s.stks (s.ents e).stk stk 0 with
      | .error f => .error f
      | .ok false => search s stk tag fuel (some e) (s.ents e).nextHash
      | .ok true => .ok (some (last, e))

/-- Write one field-updated record back to the entry heap. -/
def setEnt (ents : Nat → profMapEntry) (p : Nat) (v : profMapEntry) : Nat → profMapEntry :=
  fun i => if i = p then v else ents i

/-- Lines 58-64: move the found entry to the front of its bucket and return it. -/
def moveToFront (s : State) (h : Nat) (last : Option Nat) (e : Nat) :
    Except Fault (State × Nat) :=
  match last with
  | none => .ok (s, e)
  | some l =>
    -- last.nextHash = e.nextHash
    let ents1 := setEnt s.ents l { s.ents l with nextHash := (s.ents e).nextHash }
    -- e.nextHash = m.hash[h]
    let ents2 := setEnt ents1 e { ents1 e with nextHash := hashGet s.m.hash h }
    -- m.hash[h] = e
    match s.m.hash with
    | none => .error .nilMapWrite
    | some f =>
      .ok ({ s with m := { s.m with hash := some (fun k => if k = h then some e else f k) },
                    ents := ents2 }, e)

/-- Lines 68-70: `if len(m.free) < 1 { m.free = make([]profMapEntry, 128) }`. -/
def growFree (s : State) : State :=
  if s.m.free.len < 1 then
    { s with m := { s.m with free := ⟨s.entTop, 128, 128⟩ },
             ents := fun i => if s.entTop ≤ i ∧ i < s.entTop + 128 then zeroEntry else s.ents i,
             entTop := s.entTop + 128 }
  else s

/-- Lines 76-78: `if len(m.freeStk) < len(stk) { m.freeStk = make([]uintptr, 1024) }`. -/
def growFreeStk (s : State) (n : Nat) : State :=
  if s.m.freeStk.len < n then
    { s with m := { s.m with freeStk := ⟨s.stkTop, 1024, 1024⟩ },
             stks := fun i => if s.stkTop ≤ i ∧ i < s.stkTop + 1024 then 0 else s.stks i,
             stkTop := s.stkTop + 1024 }
  else s

/-- Lines 83-85: `for j := range stk { e.stk[j] = uintptr(stk[j]) }`, started at index `j`. -/
def copyStk (mem : Nat → Nat) (es : Slice) : List Nat → Nat → Except Fault (Nat → Nat)
  | [], _ => .ok mem
  | x :: xs, j =>
    if j < es.len then
      copyStk (fun a => if a = es.off + j then x else mem a) es xs (j + 1)
    else .error .indexRange

/-- Lines 90-96: append `e` to the list of all entries. -/
def linkAll (s : State) (e : Nat) : Except Fault State :=
  match s.m.all with
  | none => .ok { s with m := { s.m with all := some e, last := some e } }
  | some _ =>
    match s.m.last with
    | none => .error .nilDeref
    | some l =>
      .ok { s with m := { s.m with last := some e },
                   ents := setEnt s.ents l { s.ents l with nextAll := some e } }

/-- Lines 67-97: add a new entry for `(stk, tag)` under bucket key `h`. -/
def addEntry (s0 : State) (h : Nat) (stk : List Nat) (tag : Nat) :
    Except Fault (State × Nat) := do
  let s1 := growFree s0
  -- e := &m.free[0]
  if ¬ 0 < s1.m.free.len then throw Fault.indexRange
  let e := s1.m.free.off
  -- m.free = m.free[1:]
  let free ← s1.m.free.drop 1
  let s2 : State := { s1 with m := { s1.m with free := free } }
  -- e.nextHash = m.hash[h]; e.tag = tag
  let s3 : State :=
    { s2 with ents := setEnt s2.ents e { s2.ents e with nextHash := hashGet s2.m.hash h, tag := tag } }
  let s4 := growFreeStk s3 stk.length
  -- e.stk = m.freeStk[:len(stk):len(stk)]
  let estk ← s4.m.freeStk.take3 stk.length stk.length
  -- m.freeStk = m.freeStk[len(stk):]
  let freeStk ← s4.m.freeStk.drop stk.length
  let s5 : State :=
    { s4 with m := { s4.m with freeStk := freeStk },
              ents := setEnt s4.ents e { s4.ents e with stk := estk } }
  let mem ← copyStk s5.stks (s5.ents e).stk stk 0
  let s6 : State := { s5 with stks := mem }
  -- if m.hash == nil { m.hash = make(map[uintptr]*profMapEntry) }; m.hash[h] = e
  let f : Nat → Option Nat :=
    match s6.m.hash with
    | none => fun _ => none
    | some f => f
  let s7 : State :=
    { s6 with m := { s6.m with hash := some (fun k => if k = h then some e else f k) } }
  let s8 ← linkAll s7 e
  return (s8, e)

/-- Go `func (m *profMap) Lookup(stk []uintptr, tag uintptr) *profMapEntry`.
The search is given `entTop` steps: a bucket chain that visits more nodes than there are
allocated records repeats a node, and then the source loop never ends. -/
def Lookup (s : State) (stk : List Nat) (tag : Nat) : Except Fault (State × Nat) :=
  let h := hashOf stk tag
  match search s stk tag s.entTop none (hashGet s.m.hash h) with
  | .error f => .error f
  | .ok (some (last, e)) => moveToFront s h last e
  | .ok none => addEntry s h stk tag

/-! ## Observations on a state -/

/-- The stack an entry owns, read through its slice header. -/
def entryStk (s : State) (e : Nat) : List Nat :=
  (List.range (s.ents e).stk.len).map (fun j => s.stks ((s.ents e).stk.off + j))

/-- The `(stack, tag)` key of an entry. -/
def keyOf (s : State) (e : Nat) : List Nat × Nat :=
  (entryStk s e, (s.ents e).tag)

/-- Follow `next` from `p` until nil, visiting at most `fuel` nodes; `none` if the chain is
longer than that. -/
def walk (next : Nat → Option Nat) : Nat → Option Nat → Option (List Nat)
  | _, none => some []
  | 0, some _ => none
  | fuel + 1, some p => (walk next fuel (next p)).map (fun l => p :: l)

/-- The global chain: the nodes reached from `m.all` by `nextAll`. -/
def allChain (s : State) : Option (List Nat) :=
  walk (fun i => (s.ents i).nextAll) s.entTop s.m.all

/-- The bucket chain stored under `h`: the nodes reached from `m.hash[h]` by `nextHash`. -/
def bucketChain (s : State) (h : Nat) : Option (List Nat) :=
  walk (fun i => (s.ents i).nextHash) s.entTop (hashGet s.m.hash h)

/-- Run `Lookup` on each key in turn, keeping the state and dropping the returned entries. -/
def lookups (s : State) : List (List Nat × Nat) → Except Fault State
  | [] => .ok s
  | k :: ks =>
    match Lookup s k.1 k.2 with
    | .error f => .error f
    | .ok (s', _) => lookups s' ks

/-- States reachable from the zero-value map by `Lookup` calls that return. -/
inductive Reachable : State → Prop where
  | empty : Reachable State.empty
  | step {s s' : State} {stk : List Nat} {tag e : Nat} :
      Reachable s → Lookup s stk tag = .ok (s', e) → Reachable s'

/-- States reached from `s` by zero or more `Lookup` calls that return. -/
inductive Steps (s : State) : State → Prop where
  | refl : Steps s s
  | step {s1 s2 : State} {stk : List Nat} {tag e : Nat} :
      Steps s s1 → Lookup s1 stk tag = .ok (s2, e) → Steps s s2

/-! ## The hash as the specification words it -/

/-- Rotation of a `w`-bit word to the left by `k` bits: the low `w - k` bits move up by `k`
places and the high `k` bits come down to the bottom. -/
def rotateLeft (w k h : Nat) : Nat :=
  2 ^ k * (h % 2 ^ (w - k)) + (h % 2 ^ w) / 2 ^ (w - k)

/-- The rotate-and-accumulate fold of the specification over a sequence of values:
from `h = 0`, for each `x` in order, `h := (rotateLeft(h, 8) + x * 41) mod 2 ^ 64`. -/
def rotateAccumulate (xs : List Nat) : Nat :=
  xs.foldl (fun h x => (rotateLeft 64 8 h + x * 41) % 2 ^ 64) 0

/-! ## Chains -/

/-- The nodes `l` lead from pointer `p` along `next` to pointer `q`. -/
def IsSeg (next : Nat → Option Nat) : Option Nat → List Nat → Option Nat → Prop
  | p, [], q => p = q
  | p, e :: l, q => p = some e ∧ IsSeg next (next e) l q

/-- The nodes `l` are the whole nil-terminated chain that starts at `p`. -/
def IsChain (next : Nat → Option Nat) (p : Option Nat) (l : List Nat) : Prop :=
  IsSeg next p l none

/-! ## Definitions used to state and prove the properties -/

/-- The address heap after storing `xs` at consecutive slots from `a0`. -/
def writeStk (mem : Nat → Nat) (a0 : Nat) (xs : List Nat) : Nat → Nat :=
  fun a => if a0 ≤ a ∧ a < a0 + xs.length then xs.getD (a - a0) 0 else mem a

/-- The value of `last` when the search stops at the node that follows `l1`. -/
def lastOf (last : Option Nat) (l1 : List Nat) : Option Nat :=
  match l1.getLast? with
  | none => last
  | some x => some x

/-- Offset of the slots the new entry gets. -/
def newStkOff (s : State) (n : Nat) : Nat :=
  if s.m.freeStk.len < n then s.stkTop else s.m.freeStk.off

/-- The state `addEntry` leaves behind, written out field by field. -/
def addState (s : State) (h : Nat) (stk : List Nat) (tag : Nat) : State :=
  let n := s.m.free.off
  let fo := if s.m.freeStk.len < stk.length then s.stkTop else s.m.freeStk.off
  { m :=
      { hash := some (fun k => if k = h then some n else hashGet s.m.hash k)
        all := some 0
        last := some n
        free :=
          if s.m.free.len < 1 then ⟨n + 1, 127, 127⟩
          else ⟨n + 1, s.m.free.len - 1, s.m.free.len - 1⟩
        freeStk :=
          if s.m.freeStk.len < stk.length then
            ⟨fo + stk.length, 1024 - stk.length, 1024 - stk.length⟩
          else ⟨fo + stk.length, s.m.freeStk.len - stk.length, s.m.freeStk.len - stk.length⟩ }
    ents := fun i =>
      if i = n then
        ⟨hashGet s.m.hash h, none, ⟨fo, stk.length, stk.length⟩, tag, ⟨0, 0⟩, ⟨0, 0⟩, ⟨0, 0⟩⟩
      else if i + 1 = n then { s.ents i with nextAll := some n }
      else s.ents i
    entTop := if s.m.free.len < 1 then s.entTop + 128 else s.entTop
    stks :=
      writeStk
        (if s.m.freeStk.len < stk.length then
          fun i => if s.stkTop ≤ i ∧ i < s.stkTop + 1024 then 0 else s.stks i
         else s.stks) fo stk
    stkTop := if s.m.freeStk.len < stk.length then s.stkTop + 1024 else s.stkTop }

/-- The state `moveToFront` leaves behind when `last` is the non-nil pointer `l`. -/
def mtfState (s : State) (h l e : Nat) : State :=
  { s with
    m := { s.m with hash := some (fun k => if k = h then some e else hashGet s.m.hash k) }
    ents :=
      setEnt (setEnt s.ents l { s.ents l with nextHash := (s.ents e).nextHash }) e
        { setEnt s.ents l { s.ents l with nextHash := (s.ents e).nextHash } e with
          nextHash := hashGet s.m.hash h } }

/-- Well-formedness of a map state.  The records below `m.free.off` are the entries handed out
so far, numbered in creation order. -/
structure Inv (s : State) : Prop where
  free_cap : s.m.free.cap = s.m.free.len
  free_top : s.m.free.off + s.m.free.len = s.entTop
  free_zero : ∀ i, s.m.free.off ≤ i → s.ents i = zeroEntry
  stk_cap : s.m.freeStk.cap = s.m.freeStk.len
  stk_top : s.m.freeStk.off + s.m.freeStk.len = s.stkTop
  stk_len : s.m.freeStk.len ≤ 1024
  all_eq : s.m.all = if s.m.free.off = 0 then none else some 0
  last_eq : s.m.last = if s.m.free.off = 0 then none else some (s.m.free.off - 1)
  nextAll_eq : ∀ i, i < s.m.free.off →
    (s.ents i).nextAll = if i + 1 < s.m.free.off then some (i + 1) else none
  estk_cap : ∀ i, i < s.m.free.off → (s.ents i).stk.cap = (s.ents i).stk.len
  estk_len : ∀ i, i < s.m.free.off → (s.ents i).stk.len ≤ 1024
  estk_lim : ∀ i, i < s.m.free.off →
    (s.ents i).stk.off + (s.ents i).stk.len ≤ s.m.freeStk.off
  estk_sep : ∀ i j, i < j → j < s.m.free.off →
    (s.ents i).stk.off + (s.ents i).stk.len ≤ (s.ents j).stk.off
  key_inj : ∀ i j, i < s.m.free.off → j < s.m.free.off → keyOf s i = keyOf s j → i = j
  bucket : ∀ h, ∃ l, IsChain (fun i => (s.ents i).nextHash) (hashGet s.m.hash h) l ∧ l.Nodup ∧
    ∀ e, e ∈ l ↔ (e < s.m.free.off ∧ hashOf (keyOf s e).1 (keyOf s e).2 = h)

/-- What a hit leaves untouched: everything but the bucket table and `nextHash` links. -/
structure HitFrame (s s' : State) : Prop where
  all : s'.m.all = s.m.all
  last : s'.m.last = s.m.last
  free : s'.m.free = s.m.free
  freeStk : s'.m.freeStk = s.m.freeStk
  entTop : s'.entTop = s.entTop
  stks : s'.stks = s.stks
  stkTop : s'.stkTop = s.stkTop
  ents : ∀ i, { s'.ents i with nextHash := none } = { s.ents i with nextHash := none }

/-- What every returning `Lookup` on a well-formed state guarantees. -/
structure Post (s : State) (stk : List Nat) (tag : Nat) (s' : State) (e : Nat) : Prop where
  inv : Inv s'
  len : stk.length ≤ 1024
  key : keyOf s' e = (stk, tag)
  ret : e < s'.m.free.off
  mono : s.m.free.off ≤ s'.m.free.off
  keys : ∀ i, i < s.m.free.off → keyOf s' i = keyOf s i
  fields : ∀ i, i < s.m.free.off →
    (s'.ents i).stk = (s.ents i).stk ∧ (s'.ents i).tag = (s.ents i).tag ∧
    (s'.ents i).prev = (s.ents i).prev ∧ (s'.ents i).acc = (s.ents i).acc ∧
    (s'.ents i).acc2 = (s.ents i).acc2
  fstk : s.m.freeStk.off ≤ s'.m.freeStk.off
  stks : ∀ a, a < s.m.freeStk.off → s'.stks a = s.stks a
  cases :
    (e < s.m.free.off ∧ keyOf s e = (stk, tag) ∧ HitFrame s s') ∨
    (e = s.m.free.off ∧ (∀ i, i < s.m.free.off → keyOf s i ≠ (stk, tag)) ∧
      s' = addState s (hashOf stk tag) stk tag)

/-- What any number of returning `Lookup` calls preserve about the entries that exist. -/
structure Later (s s' : State) : Prop where
  inv : Inv s'
  mono : s.m.free.off ≤ s'.m.free.off
  keys : ∀ i, i < s.m.free.off → keyOf s' i = keyOf s i
  fields : ∀ i, i < s.m.free.off →
    (s'.ents i).stk = (s.ents i).stk ∧ (s'.ents i).tag = (s.ents i).tag
  fstk : s.m.freeStk.off ≤ s'.m.freeStk.off
  stks : ∀ a, a < s.m.freeStk.off → s'.stks a = s.stks a

/-- The keys of the entries handed out so far, in creation order. -/
def keysOf (s : State) : List (List Nat × Nat) :=
  (List.range s.m.free.off).map (keyOf s)

/-- Record a key unless it is already known. -/
def addKey (K : List (List Nat × Nat)) (k : List Nat × Nat) : List (List Nat × Nat) :=
  if k ∈ K then K else K ++ [k]

/-- The caller of `Lookup` stores counters in an entry it holds a pointer to
(`e.prev = prev; e.acc = acc; e.acc2 = acc2`). -/
def setCounts (s : State) (e : Nat) (prev acc acc2 : count) : State :=
  { s with ents := setEnt s.ents e { s.ents e with prev := prev, acc := acc, acc2 := acc2 } }

/-- States reachable from the zero-value map by `Lookup` calls that return, interleaved with
the caller storing arbitrary counters in entries of the global chain. -/
inductive ReachableC : State → Prop where
  | empty : ReachableC State.empty
  | lookup {s s' : State} {stk : List Nat} {tag e : Nat} :
      ReachableC s → Lookup s stk tag = .ok (s', e) → ReachableC s'
  | counts {s : State} {G : List Nat} {e : Nat} (prev acc acc2 : count) :
      ReachableC s → allChain s = some G → e ∈ G → ReachableC (setCounts s e prev acc acc2)

end Pprof

/-! # `pyroscope/api.go` -/

namespace Pyroscope

/-- Go `time.Duration` values are counted in nanoseconds. -/
def Second : Nat := 1000000000

/-- Go `type Config struct`.  `ProfileType` and `Logger` are declared outside the files at
hand and are type parameters; a nil `Logger` is `none`. -/
structure Config (ProfileType Logger : Type) where
  ApplicationName : String
  Tags : List (String × String)
  ServerAddress : String
  AuthToken : String
  SampleRate : Nat
  Logger : Option Logger
  ProfileTypes : List ProfileType
  DisableGCRuns : Bool
  ManualFlush : Bool

/-- The package-level values `Start` refers to that are declared outside the files at hand. -/
structure Defaults (ProfileType Logger : Type) where
  DefaultProfileTypes : List ProfileType
  DefaultSampleRate : Nat
  noopLogger : Logger

/-- The fields of `remote.Config` that `Start` sets. -/
structure RemoteConfig (Logger : Type) where
  AuthToken : String
  Address : String
  Threads : Nat
  Timeout : Nat
  Logger : Option Logger

/-- The fields of `SessionConfig` that the composite literal in `Start` sets (lines 60-69);
any other field of the type is left at its zero value for every input. -/
structure SessionConfig (ProfileType Logger Upstream : Type) where
  Upstream : Upstream
  Logger : Option Logger
  AppName : String
  Tags : List (String × String)
  ProfilingTypes : List ProfileType
  DisableGCRuns : Bool
  SampleRate : Nat
  UploadRate : Nat

/-- Lines 32-46 of `Start`: the assignments to the fields of the local copy `cfg`.  `adhoc` is
the result of `os.LookupEnv("PYROSCOPE_ADHOC_SERVER_ADDRESS")`. -/
def normalize {P L : Type} (d : Defaults P L) (adhoc : Option String) (cfg : Config P L) :
    Config P L :=
  { cfg with
    ProfileTypes :=
      if cfg.ProfileTypes.length = 0 then d.DefaultProfileTypes else cfg.ProfileTypes
    SampleRate := if cfg.SampleRate = 0 then d.DefaultSampleRate else cfg.SampleRate
    Logger :=
      match cfg.Logger with
      | none => some d.noopLogger
      | some l => some l
    ServerAddress :=
      match adhoc with
      | some address => address
      | none => cfg.ServerAddress }

/-- Lines 48-54 of `Start`: the value `rc` handed to `remote.NewRemote`. -/
def remoteConfig {P L : Type} (d : Defaults P L) (adhoc : Option String) (cfg0 : Config P L) :
    RemoteConfig L :=
  { AuthToken := (normalize d adhoc cfg0).AuthToken
    Address := (normalize d adhoc cfg0).ServerAddress
    Threads := 4
    Timeout := 30 * Second
    Logger := (normalize d adhoc cfg0).Logger }

/-- Lines 31-69 of `Start`: the `SessionConfig` value `sc` that is handed to `NewSession`, or
the error of `remote.NewRemote`, for which `newRemote` stands. -/
def startSessionConfig {P L U E : Type} (d : Defaults P L) (adhoc : Option String)
    (newRemote : RemoteConfig L → Except E U) (cfg0 : Config P L) :
    Except E (SessionConfig P L U) :=
  let cfg := normalize d adhoc cfg0
  let rc : RemoteConfig L :=
    { AuthToken := cfg.AuthToken
      Address := cfg.ServerAddress
      Threads := 4
      Timeout := 30 * Second
      Logger := cfg.Logger }
  match newRemote rc with
  | .error err => .error err
  | .ok uploader =>
    .ok
      { Upstream := uploader
        Logger := cfg.Logger
        AppName := cfg.ApplicationName
        Tags := cfg.Tags
        ProfilingTypes := cfg.ProfileTypes
        DisableGCRuns := cfg.DisableGCRuns
        SampleRate := cfg.SampleRate
        UploadRate := 10 * Second }

end Pyroscope

/-! # Properties of `map.go` -/

namespace Pprof

/-! ## Heap writes -/

@[simp] theorem setEnt_self (ents : Nat → profMapEntry) (p : Nat) (v : profMapEntry) :
    setEnt ents p v p = v := by
  simp [setEnt]

@[simp] theorem setEnt_setEnt (ents : Nat → profMapEntry) (p : Nat) (v w : profMapEntry) :
    setEnt (setEnt ents p v) p w = setEnt ents p w := by
  funext i
  by_cases h : i = p <;> simp [setEnt, h]

/-! ## Chain segments -/

theorem IsSeg.append {next : Nat → Option Nat} {l1 l2 : List Nat} {p q r : Option Nat}
    (h1 : IsSeg next p l1 q) (h2 : IsSeg next q l2 r) : IsSeg next p (l1 ++ l2) r := by
  induction l1 generalizing p with
  | nil => simp only [IsSeg] at h1; subst h1; simpa using h2
  | cons a l ih => exact ⟨h1.1, ih h1.2⟩

theorem IsSeg.split {next : Nat → Option Nat} {l1 l2 : List Nat} {p r : Option Nat}
    (h : IsSeg next p (l1 ++ l2) r) : ∃ q, IsSeg next p l1 q ∧ IsSeg next q l2 r := by
  induction l1 generalizing p with
  | nil => exact ⟨p, rfl, by simpa using h⟩
  | cons a l ih =>
    obtain ⟨q, hq1, hq2⟩ := ih h.2
    exact ⟨q, ⟨h.1, hq1⟩, hq2⟩

theorem IsSeg.congr {next next' : Nat → Option Nat} {l : List Nat} {p q : Option Nat}
    (h : IsSeg next p l q) (hn : ∀ e ∈ l, next' e = next e) : IsSeg next' p l q := by
  induction l generalizing p with
  | nil => exact h
  | cons a l ih =>
    refine ⟨h.1, ?_⟩
    rw [hn a (List.mem_cons_self a l)]
    exact ih h.2 (fun e he => hn e (List.mem_cons_of_mem a he))

theorem IsSeg.unique {next : Nat → Option Nat} {l l' : List Nat} {p : Option Nat}
    (h : IsSeg next p l none) (h' : IsSeg next p l' none) : l = l' := by
  induction l generalizing p l' with
  | nil =>
    cases l' with
    | nil => rfl
    | cons b l' => simp only [IsSeg] at h h'; rw [h] at h'; exact absurd h'.1 (by simp)
  | cons a l ih =>
    cases l' with
    | nil => simp only [IsSeg] at h h'; rw [h'] at h; exact absurd h.1 (by simp)
    | cons b l' =>
      have hab : a = b := by
        have := h.1.symm.trans h'.1
        simpa using this
      subst hab
      rw [ih h.2 h'.2]

theorem walk_of_isChain {next : Nat → Option Nat} {l : List Nat} {p : Option Nat} {fuel : Nat}
    (h : IsChain next p l) (hf : l.length ≤ fuel) : walk next fuel p = some l := by
  induction l generalizing p fuel with
  | nil =>
    have hp : p = none := h
    subst hp
    cases fuel <;> rfl
  | cons a l ih =>
    have hp : p = some a := h.1
    subst hp
    cases fuel with
    | zero => simp at hf
    | succ f =>
      have := @ih (next a) f h.2 (by simpa using hf)
      simp [walk, this]

/-! ## The two inner loops -/

theorem sameStk_eq (mem : Nat → Nat) (es : Slice) (xs : List Nat) (j : Nat)
    (hj : j + xs.length ≤ es.len) :
    sameStk mem es xs j =
      .ok (decide ((List.range xs.length).map (fun k => mem (es.off + (j + k))) = xs)) := by
  induction xs generalizing j with
  | nil => simp [sameStk]
  | cons x xs ih =>
    have hlt : j < es.len := by simp at hj; omega
    have hrec := ih (j + 1) (by simp at hj ⊢; omega)
    simp only [sameStk, hlt, if_true, List.length_cons, List.range_succ_eq_map, List.map_cons,
      List.map_map, Nat.add_zero]
    by_cases hx : mem (es.off + j) = x
    · simp only [hx, ne_eq, not_true_eq_false, if_false, hrec]
      congr 1
      simp only [List.cons.injEq, true_and, decide_eq_decide]
      have : ((fun k => mem (es.off + (j + k))) ∘ Nat.succ) = fun k => mem (es.off + (j + 1 + k)) := by
        funext k
        simp only [Function.comp, Nat.succ_eq_add_one]
        congr 2
        omega
      rw [this]
    · simp [hx]

theorem copyStk_eq (mem : Nat → Nat) (es : Slice) (xs : List Nat) (j : Nat)
    (hj : j + xs.length ≤ es.len) :
    copyStk mem es xs j = .ok (writeStk mem (es.off + j) xs) := by
  induction xs generalizing mem j with
  | nil =>
    simp only [copyStk]
    congr 1
    funext a
    have : ¬ (es.off + j ≤ a ∧ a < es.off + j) := by omega
    simp [writeStk, this]
  | cons x xs ih =>
    have hlt : j < es.len := by simp at hj; omega
    have hrec := ih (fun a => if a = es.off + j then x else mem a) (j + 1)
      (by simp at hj ⊢; omega)
    simp only [copyStk, hlt, if_true, hrec]
    congr 1
    funext a
    simp only [writeStk, List.length_cons]
    by_cases h1 : a = es.off + j
    · subst h1
      have : ¬ (es.off + (j + 1) ≤ es.off + j ∧ es.off + j < es.off + (j + 1) + xs.length) := by
        omega
      simp [this]
    · by_cases h2 : es.off + (j + 1) ≤ a ∧ a < es.off + (j + 1) + xs.length
      · have h3 : es.off + j ≤ a ∧ a < es.off + j + (xs.length + 1) := by omega
        have h4 : a - (es.off + j) = (a - (es.off + (j + 1))) + 1 := by omega
        simp [h2, h3, h4]
      · have h3 : ¬ (es.off + j ≤ a ∧ a < es.off + j + (xs.length + 1)) := by omega
        simp [h2, h3, h1]

theorem writeStk_read (mem : Nat → Nat) (a0 : Nat) (xs : List Nat) :
    (List.range xs.length).map (fun j => writeStk mem a0 xs (a0 + j)) = xs := by
  apply List.ext_getElem
  · simp
  · intro i h1 h2
    have hi : i < xs.length := by simpa using h1
    have : a0 ≤ a0 + i ∧ a0 + i < a0 + xs.length := by omega
    simp [writeStk, this, hi]

theorem writeStk_frame (mem : Nat → Nat) (a0 : Nat) (xs : List Nat) (a : Nat) (ha : a < a0) :
    writeStk mem a0 xs a = mem a := by
  have : ¬ (a0 ≤ a ∧ a < a0 + xs.length) := by omega
  simp [writeStk, this]

/-! ## The search loop on a well-formed bucket chain -/

theorem keyOf_eq_iff (s : State) (e : Nat) (stk : List Nat) (tag : Nat) :
    keyOf s e = (stk, tag) ↔
      (s.ents e).stk.len = stk.length ∧ (s.ents e).tag = tag ∧
        (List.range stk.length).map (fun k => s.stks ((s.ents e).stk.off + k)) = stk := by
  simp only [keyOf, entryStk, Prod.mk.injEq]
  constructor
  · rintro ⟨h1, h2⟩
    have hl : (s.ents e).stk.len = stk.length := by
      have := congrArg List.length h1
      simpa using this
    refine ⟨hl, h2, ?_⟩
    rw [← hl]
    exact h1
  · rintro ⟨h1, h2, h3⟩
    refine ⟨?_, h2⟩
    rw [h1]
    exact h3

theorem search_step (s : State) (stk : List Nat) (tag fuel : Nat) (last : Option Nat) (e : Nat) :
    search s stk tag (fuel + 1) last (some e) =
      if keyOf s e = (stk, tag) then .ok (some (last, e))
      else search s stk tag fuel (some e) (s.ents e).nextHash := by
  by_cases hk : keyOf s e = (stk, tag)
  · rw [if_pos hk]
    obtain ⟨hl, ht, hc⟩ := (keyOf_eq_iff s e stk tag).mp hk
    have hs := sameStk_eq s.stks (s.ents e).stk stk 0 (by omega)
    simp only [Nat.zero_add] at hs
    simp [search, hl, ht, hs, hc]
  · rw [if_neg hk]
    by_cases hl : (s.ents e).stk.len = stk.length
    · by_cases ht : (s.ents e).tag = tag
      · have hs := sameStk_eq s.stks (s.ents e).stk stk 0 (by omega)
        have hc : ¬ (List.range stk.length).map
            (fun k => s.stks ((s.ents e).stk.off + k)) = stk :=
          fun hc => hk ((keyOf_eq_iff s e stk tag).mpr ⟨hl, ht, hc⟩)
        simp only [Nat.zero_add] at hs
        simp [search, hl, ht, hs, hc]
      · simp [search, hl, ht]
    · simp [search, hl]

theorem search_miss (s : State) (stk : List Nat) (tag : Nat) {l : List Nat} {p : Option Nat}
    (fuel : Nat) (last : Option Nat)
    (hc : IsChain (fun i => (s.ents i).nextHash) p l) (hf : l.length ≤ fuel)
    (hk : ∀ e ∈ l, keyOf s e ≠ (stk, tag)) :
    search s stk tag fuel last p = .ok none := by
  induction l generalizing p fuel last with
  | nil =>
    have hp : p = none := hc
    subst hp
    cases fuel <;> rfl
  | cons a l ih =>
    have hp : p = some a := hc.1
    subst hp
    cases fuel with
    | zero => simp at hf
    | succ f =>
      rw [search_step, if_neg (hk a (List.mem_cons_self a l))]
      exact ih f (some a) hc.2 (by simpa using hf)
        (fun e he => hk e (List.mem_cons_of_mem a he))

theorem search_hit (s : State) (stk : List Nat) (tag : Nat) {l1 l2 : List Nat} {e : Nat}
    {p : Option Nat} (fuel : Nat) (last : Option Nat)
    (hc : IsChain (fun i => (s.ents i).nextHash) p (l1 ++ e :: l2)) (hf : l1.length < fuel)
    (hk : ∀ x ∈ l1, keyOf s x ≠ (stk, tag)) (he : keyOf s e = (stk, tag)) :
    search s stk tag fuel last p = .ok (some (lastOf last l1, e)) := by
  induction l1 generalizing p fuel last with
  | nil =>
    have hp : p = some e := hc.1
    subst hp
    cases fuel with
    | zero => simp at hf
    | succ f => rw [search_step, if_pos he]; rfl
  | cons a l ih =>
    have hp : p = some a := hc.1
    subst hp
    cases fuel with
    | zero => simp at hf
    | succ f =>
      rw [search_step, if_neg (hk a (List.mem_cons_self a l))]
      rw [ih f (some a) hc.2 (by simpa using hf) (fun x hx => hk x (List.mem_cons_of_mem a hx))]
      congr 3
      cases l with
      | nil => rfl
      | cons b l =>
        have hne : (b :: l).getLast? ≠ none := by simp
        simp only [lastOf, List.getLast?_cons_cons]
        cases hg : (b :: l).getLast? with
        | none => exact absurd hg hne
        | some x => rfl

/-! ## The representation invariant -/

theorem addEntry_eq (s : State) (h : Nat) (stk : List Nat) (tag : Nat) (hinv : Inv s)
    (hlen : stk.length ≤ 1024) :
    addEntry s h stk tag = .ok (addState s h stk tag, s.m.free.off) := by
  have hmap : (match (motive := Option (ℕ → Option ℕ) → ℕ → Option ℕ) s.m.hash with
      | none => fun _ => none
      | some f => f) = hashGet s.m.hash := by
    cases s.m.hash <;> rfl
  have ha := hinv.all_eq
  have hl := hinv.last_eq
  have ht := hinv.free_top
  have hc := hinv.free_cap
  have hsc := hinv.stk_cap
  have hsl := hinv.stk_len
  have hz := hinv.free_zero
  by_cases hn : s.m.free.off = 0
  · rw [if_pos hn] at ha hl
    by_cases hf : s.m.free.len < 1
    · have hte : s.entTop = 0 := by omega
      by_cases hg : s.m.freeStk.len < stk.length
      · simp [addEntry, addState, growFree, growFreeStk, hf, hg, hn, Slice.drop, Slice.take3,
          hlen, copyStk_eq, linkAll, bind, Except.bind, pure, Except.pure, ha, hl, hmap, hte]
        funext i
        by_cases hi : i = 0
        · subst hi; simp [zeroEntry, Slice.nil]
        · simp [setEnt, hi, hz i (by omega)]
      · have hg1 : stk.length ≤ s.m.freeStk.len := by omega
        have hg2 : stk.length ≤ s.m.freeStk.cap := by omega
        simp [addEntry, addState, growFree, growFreeStk, hf, hg, hn, Slice.drop, Slice.take3,
          hlen, copyStk_eq, linkAll, bind, Except.bind, pure, Except.pure, ha, hl, hmap, hte,
          hg1, hg2, hsc]
        funext i
        by_cases hi : i = 0
        · subst hi; simp [zeroEntry, Slice.nil]
        · simp [setEnt, hi, hz i (by omega)]
    · have hf1 : 1 ≤ s.m.free.len := by omega
      have hf2 : 0 < s.m.free.len := by omega
      have hz0 := hz 0 (by omega)
      by_cases hg : s.m.freeStk.len < stk.length
      · simp [addEntry, addState, growFree, growFreeStk, hf, hg, hn, Slice.drop, Slice.take3,
          hlen, copyStk_eq, linkAll, bind, Except.bind, pure, Except.pure, ha, hl, hmap,
          hf1, hf2, hc]
        funext i
        by_cases hi : i = 0
        · subst hi; simp [hz0, zeroEntry, Slice.nil]
        · simp [setEnt, hi]
      · have hg1 : stk.length ≤ s.m.freeStk.len := by omega
        have hg2 : stk.length ≤ s.m.freeStk.cap := by omega
        simp [addEntry, addState, growFree, growFreeStk, hf, hg, hn, Slice.drop, Slice.take3,
          hlen, copyStk_eq, linkAll, bind, Except.bind, pure, Except.pure, ha, hl, hmap,
          hf1, hf2, hc, hg1, hg2, hsc]
        funext i
        by_cases hi : i = 0
        · subst hi; simp [hz0, zeroEntry, Slice.nil]
        · simp [setEnt, hi]
  · rw [if_neg hn] at ha hl
    have hzn := hz s.m.free.off (le_refl _)
    have hn1 : s.m.free.off - 1 ≠ s.m.free.off := by omega
    have hfin : ∀ (f : Nat → profMapEntry) (v : profMapEntry),
        (∀ i, s.m.free.off ≤ i → f i = s.ents i) → (∀ i, i < s.m.free.off → f i = s.ents i) →
        setEnt (setEnt f s.m.free.off v) (s.m.free.off - 1)
          { setEnt f s.m.free.off v (s.m.free.off - 1) with nextAll := some s.m.free.off } =
        fun i => if i = s.m.free.off then v
          else if i + 1 = s.m.free.off then { s.ents i with nextAll := some s.m.free.off }
          else s.ents i := by
      intro f v hf1 hf2
      funext i
      by_cases hi : i = s.m.free.off
      · subst hi; simp [setEnt, hn1.symm]
      · by_cases hi2 : i + 1 = s.m.free.off
        · have hi3 : i = s.m.free.off - 1 := by omega
          have hi4 : i < s.m.free.off := by omega
          simp [setEnt, hi, hi2, ← hi3, hf2 i hi4]
        · have hi3 : i ≠ s.m.free.off - 1 := by omega
          rcases Nat.lt_or_ge i s.m.free.off with hlt | hge
          · simp [setEnt, hi, hi2, hi3, hf2 i hlt]
          · simp [setEnt, hi, hi2, hi3, hf1 i hge]
    have hgrow : ∀ i, s.m.free.off ≤ i →
        (if s.m.free.off ≤ i ∧ i < s.m.free.off + 128 then zeroEntry else s.ents i) =
          s.ents i := by
      intro i hi
      rw [hz i hi]
      simp
    have hgrow2 : ∀ i, i < s.m.free.off →
        (if s.m.free.off ≤ i ∧ i < s.m.free.off + 128 then zeroEntry else s.ents i) =
          s.ents i := by
      intro i hi
      have : ¬ (s.m.free.off ≤ i ∧ i < s.m.free.off + 128) := by omega
      simp [this]
    by_cases hf : s.m.free.len < 1
    · have hte : s.entTop = s.m.free.off := by omega
      by_cases hg : s.m.freeStk.len < stk.length
      · simp [addEntry, addState, growFree, growFreeStk, hf, hg, hn, Slice.drop, Slice.take3,
          hlen, copyStk_eq, linkAll, bind, Except.bind, pure, Except.pure, ha, hl, hmap, hte]
        exact hfin _ _ hgrow hgrow2
      · have hg1 : stk.length ≤ s.m.freeStk.len := by omega
        have hg2 : stk.length ≤ s.m.freeStk.cap := by omega
        simp [addEntry, addState, growFree, growFreeStk, hf, hg, hn, Slice.drop, Slice.take3,
          hlen, copyStk_eq, linkAll, bind, Except.bind, pure, Except.pure, ha, hl, hmap, hte,
          hg1, hg2, hsc]
        exact hfin _ _ hgrow hgrow2
    · have hf1 : 1 ≤ s.m.free.len := by omega
      have hf2 : 0 < s.m.free.len := by omega
      by_cases hg : s.m.freeStk.len < stk.length
      · simp [addEntry, addState, growFree, growFreeStk, hf, hg, hn, Slice.drop, Slice.take3,
          hlen, copyStk_eq, linkAll, bind, Except.bind, pure, Except.pure, ha, hl, hmap,
          hf1, hf2, hc, hzn]
        exact hfin _ _ (fun _ _ => rfl) (fun _ _ => rfl)
      · have hg1 : stk.length ≤ s.m.freeStk.len := by omega
        have hg2 : stk.length ≤ s.m.freeStk.cap := by omega
        simp [addEntry, addState, growFree, growFreeStk, hf, hg, hn, Slice.drop, Slice.take3,
          hlen, copyStk_eq, linkAll, bind, Except.bind, pure, Except.pure, ha, hl, hmap,
          hf1, hf2, hc, hg1, hg2, hsc, hzn]
        exact hfin _ _ (fun _ _ => rfl) (fun _ _ => rfl)

/-! ## Facts about the state after a miss -/

section AddState

variable (s : State) (h : Nat) (stk : List Nat) (tag : Nat)

theorem addState_free_off : (addState s h stk tag).m.free.off = s.m.free.off + 1 := by
  unfold addState
  dsimp only
  split <;> rfl

theorem addState_free_len :
    (addState s h stk tag).m.free.len = if s.m.free.len < 1 then 127 else s.m.free.len - 1 := by
  unfold addState
  dsimp only
  split <;> rfl

theorem addState_free_cap :
    (addState s h stk tag).m.free.cap = (addState s h stk tag).m.free.len := by
  unfold addState
  dsimp only
  split <;> rfl

theorem addState_freeStk_off :
    (addState s h stk tag).m.freeStk.off = newStkOff s stk.length + stk.length := by
  unfold addState newStkOff
  dsimp only
  split <;> rfl

theorem addState_freeStk_len :
    (addState s h stk tag).m.freeStk.len =
      if s.m.freeStk.len < stk.length then 1024 - stk.length
      else s.m.freeStk.len - stk.length := by
  unfold addState
  dsimp only
  split <;> rfl

theorem addState_freeStk_cap :
    (addState s h stk tag).m.freeStk.cap = (addState s h stk tag).m.freeStk.len := by
  unfold addState
  dsimp only
  split <;> rfl

theorem addState_ents_new :
    (addState s h stk tag).ents s.m.free.off =
      ⟨hashGet s.m.hash h, none, ⟨newStkOff s stk.length, stk.length, stk.length⟩, tag,
        ⟨0, 0⟩, ⟨0, 0⟩, ⟨0, 0⟩⟩ := by
  simp [addState, newStkOff]

theorem addState_ents_old (i : Nat) (hi : i ≠ s.m.free.off) :
    (addState s h stk tag).ents i =
      if i + 1 = s.m.free.off then { s.ents i with nextAll := some s.m.free.off }
      else s.ents i := by
  simp [addState, hi]

theorem addState_ents_frame (i : Nat) (hi : i ≠ s.m.free.off) :
    ((addState s h stk tag).ents i).nextHash = (s.ents i).nextHash ∧
    ((addState s h stk tag).ents i).stk = (s.ents i).stk ∧
    ((addState s h stk tag).ents i).tag = (s.ents i).tag ∧
    ((addState s h stk tag).ents i).prev = (s.ents i).prev ∧
    ((addState s h stk tag).ents i).acc = (s.ents i).acc ∧
    ((addState s h stk tag).ents i).acc2 = (s.ents i).acc2 := by
  rw [addState_ents_old s h stk tag i hi]
  split <;> simp

theorem newStkOff_ge (hinv : Inv s) (n : Nat) : s.m.freeStk.off ≤ newStkOff s n := by
  have := hinv.stk_top
  unfold newStkOff
  split <;> omega

theorem addState_stks_old (hinv : Inv s) (a : Nat) (ha : a < s.m.freeStk.off) :
    (addState s h stk tag).stks a = s.stks a := by
  have h1 := newStkOff_ge s hinv stk.length
  have h2 := hinv.stk_top
  have h3 : (addState s h stk tag).stks =
      writeStk (if s.m.freeStk.len < stk.length then
          fun i => if s.stkTop ≤ i ∧ i < s.stkTop + 1024 then 0 else s.stks i
         else s.stks) (newStkOff s stk.length) stk := rfl
  rw [h3, writeStk_frame _ _ _ _ (by omega)]
  split
  · have : ¬ (s.stkTop ≤ a ∧ a < s.stkTop + 1024) := by omega
    simp [this]
  · rfl

theorem addState_entryStk_new :
    entryStk (addState s h stk tag) s.m.free.off = stk := by
  have h3 : (addState s h stk tag).stks =
      writeStk (if s.m.freeStk.len < stk.length then
          fun i => if s.stkTop ≤ i ∧ i < s.stkTop + 1024 then 0 else s.stks i
         else s.stks) (newStkOff s stk.length) stk := rfl
  unfold entryStk
  rw [addState_ents_new, h3]
  exact writeStk_read _ _ _

theorem addState_keyOf_new :
    keyOf (addState s h stk tag) s.m.free.off = (stk, tag) := by
  unfold keyOf
  rw [addState_entryStk_new, addState_ents_new]

theorem addState_entryStk_old (hinv : Inv s) (i : Nat) (hi : i < s.m.free.off) :
    entryStk (addState s h stk tag) i = entryStk s i := by
  have hf := (addState_ents_frame s h stk tag i (by omega)).2.1
  have hlim := hinv.estk_lim i hi
  unfold entryStk
  rw [hf]
  apply List.map_congr_left
  intro j hj
  have : j < (s.ents i).stk.len := by simpa using hj
  exact addState_stks_old s h stk tag hinv _ (by omega)

theorem addState_keyOf_old (hinv : Inv s) (i : Nat) (hi : i < s.m.free.off) :
    keyOf (addState s h stk tag) i = keyOf s i := by
  unfold keyOf
  rw [addState_entryStk_old s h stk tag hinv i hi,
    (addState_ents_frame s h stk tag i (by omega)).2.2.1]

end AddState

theorem Inv_empty : Inv State.empty where
  free_cap := rfl
  free_top := rfl
  free_zero := fun _ _ => rfl
  stk_cap := rfl
  stk_top := rfl
  stk_len := by decide
  all_eq := rfl
  last_eq := rfl
  nextAll_eq := fun i hi => absurd hi (Nat.not_lt_zero i)
  estk_cap := fun i hi => absurd hi (Nat.not_lt_zero i)
  estk_len := fun i hi => absurd hi (Nat.not_lt_zero i)
  estk_lim := fun i hi => absurd hi (Nat.not_lt_zero i)
  estk_sep := fun i j _ hj => absurd hj (Nat.not_lt_zero j)
  key_inj := fun i j hi _ _ => absurd hi (Nat.not_lt_zero i)
  bucket := fun h => ⟨[], rfl, List.nodup_nil, fun e => by
    constructor
    · intro he; cases he
    · intro he; exact absurd he.1 (Nat.not_lt_zero e)⟩

theorem Inv_addState (s : State) (stk : List Nat) (tag : Nat) (hinv : Inv s)
    (hlen : stk.length ≤ 1024) (hk : ∀ i, i < s.m.free.off → keyOf s i ≠ (stk, tag)) :
    Inv (addState s (hashOf stk tag) stk tag) := by
  have hoff := addState_free_off s (hashOf stk tag) stk tag
  have hnew := addState_ents_new s (hashOf stk tag) stk tag
  have hfo := newStkOff_ge s hinv stk.length
  have hfr := fun i hi => addState_ents_frame s (hashOf stk tag) stk tag i hi
  have hknew := addState_keyOf_new s (hashOf stk tag) stk tag
  have hkold := addState_keyOf_old s (hashOf stk tag) stk tag hinv
  refine
    { free_cap := addState_free_cap s _ stk tag
      free_top := ?_
      free_zero := ?_
      stk_cap := addState_freeStk_cap s _ stk tag
      stk_top := ?_
      stk_len := ?_
      all_eq := ?_
      last_eq := ?_
      nextAll_eq := ?_
      estk_cap := ?_
      estk_len := ?_
      estk_lim := ?_
      estk_sep := ?_
      key_inj := ?_
      bucket := ?_ }
  · rw [hoff, addState_free_len]
    have h1 := hinv.free_top
    have h2 : (addState s (hashOf stk tag) stk tag).entTop =
        if s.m.free.len < 1 then s.entTop + 128 else s.entTop := rfl
    rw [h2]
    split <;> omega
  · intro i hi
    rw [hoff] at hi
    rw [addState_ents_old s _ stk tag i (by omega), if_neg (by omega)]
    exact hinv.free_zero i (by omega)
  · rw [addState_freeStk_off, addState_freeStk_len]
    have h1 := hinv.stk_top
    have h2 : (addState s (hashOf stk tag) stk tag).stkTop =
        if s.m.freeStk.len < stk.length then s.stkTop + 1024 else s.stkTop := rfl
    rw [h2]
    unfold newStkOff
    split <;> omega
  · rw [addState_freeStk_len]
    have h1 := hinv.stk_len
    split <;> omega
  · rw [hoff, if_neg (by omega)]
    rfl
  · rw [hoff, if_neg (by omega)]
    rfl
  · intro i hi
    rw [hoff] at hi ⊢
    by_cases hin : i = s.m.free.off
    · subst hin
      rw [hnew]
      simp
    · have hlt : i < s.m.free.off := by omega
      rw [addState_ents_old s _ stk tag i hin]
      by_cases h1 : i + 1 = s.m.free.off
      · simp [h1]
      · rw [if_neg h1, hinv.nextAll_eq i hlt, if_pos (by omega), if_pos (by omega)]
  · intro i hi
    rw [hoff] at hi
    by_cases hin : i = s.m.free.off
    · subst hin; rw [hnew]
    · rw [(hfr i hin).2.1]
      exact hinv.estk_cap i (by omega)
  · intro i hi
    rw [hoff] at hi
    by_cases hin : i = s.m.free.off
    · subst hin; rw [hnew]; exact hlen
    · rw [(hfr i hin).2.1]
      exact hinv.estk_len i (by omega)
  · intro i hi
    rw [hoff] at hi
    rw [addState_freeStk_off]
    by_cases hin : i = s.m.free.off
    · subst hin; rw [hnew]
    · rw [(hfr i hin).2.1]
      have := hinv.estk_lim i (by omega)
      omega
  · intro i j hij hj
    rw [hoff] at hj
    have hi1 : i ≠ s.m.free.off := by omega
    rw [(hfr i hi1).2.1]
    by_cases hjn : j = s.m.free.off
    · subst hjn
      rw [hnew]
      have := hinv.estk_lim i (by omega)
      show _ ≤ newStkOff s stk.length
      omega
    · rw [(hfr j hjn).2.1]
      exact hinv.estk_sep i j hij (by omega)
  · intro i j hi hj hij
    rw [hoff] at hi hj
    by_cases hin : i = s.m.free.off
    · by_cases hjn : j = s.m.free.off
      · rw [hin, hjn]
      · exfalso
        rw [hin, hknew, hkold j (by omega)] at hij
        exact hk j (by omega) hij.symm
    · by_cases hjn : j = s.m.free.off
      · exfalso
        rw [hjn, hknew, hkold i (by omega)] at hij
        exact hk i (by omega) hij
      · rw [hkold i (by omega), hkold j (by omega)] at hij
        exact hinv.key_inj i j (by omega) (by omega) hij
  · intro h'
    obtain ⟨l, hl1, hl2, hl3⟩ := hinv.bucket h'
    have hlt : ∀ e ∈ l, e < s.m.free.off := fun e he => ((hl3 e).mp he).1
    have hcongr : IsChain (fun i => ((addState s (hashOf stk tag) stk tag).ents i).nextHash)
        (hashGet s.m.hash h') l := by
      apply IsSeg.congr hl1
      intro e he
      exact (hfr e (by have := hlt e he; omega)).1
    have hget : hashGet (addState s (hashOf stk tag) stk tag).m.hash h' =
        if h' = hashOf stk tag then some s.m.free.off else hashGet s.m.hash h' := rfl
    by_cases hh : h' = hashOf stk tag
    · subst hh
      refine ⟨s.m.free.off :: l, ?_, ?_, ?_⟩
      · refine ⟨by rw [hget, if_pos rfl], ?_⟩
        show IsSeg _ ((addState s (hashOf stk tag) stk tag).ents s.m.free.off).nextHash l none
        rw [hnew]
        exact hcongr
      · refine List.nodup_cons.mpr ⟨?_, hl2⟩
        intro hmem
        exact absurd (hlt _ hmem) (Nat.lt_irrefl _)
      · intro e
        rw [hoff, List.mem_cons]
        constructor
        · rintro (he | he)
          · subst he
            rw [hknew]
            exact ⟨by omega, rfl⟩
          · have := (hl3 e).mp he
            rw [hkold e this.1]
            exact ⟨by omega, this.2⟩
        · rintro ⟨he1, he2⟩
          by_cases hen : e = s.m.free.off
          · exact Or.inl hen
          · right
            have helt : e < s.m.free.off := by omega
            rw [hkold e helt] at he2
            exact (hl3 e).mpr ⟨helt, he2⟩
    · refine ⟨l, ?_, hl2, ?_⟩
      · rw [hget, if_neg hh]
        exact hcongr
      · intro e
        rw [hoff]
        constructor
        · intro he
          have := (hl3 e).mp he
          rw [hkold e this.1]
          exact ⟨by omega, this.2⟩
        · rintro ⟨he1, he2⟩
          by_cases hen : e = s.m.free.off
          · exfalso
            rw [hen, hknew] at he2
            exact hh he2.symm
          · have helt : e < s.m.free.off := by omega
            rw [hkold e helt] at he2
            exact (hl3 e).mpr ⟨helt, he2⟩

/-! ## Facts about the state after a hit -/

theorem length_le_of_nodup_lt {l : List Nat} {n : Nat} (hnd : l.Nodup)
    (hlt : ∀ e ∈ l, e < n) : l.length ≤ n := by
  have hsub : l.toFinset ⊆ Finset.range n := by
    intro e he
    rw [List.mem_toFinset] at he
    exact Finset.mem_range.mpr (hlt e he)
  calc l.length = l.toFinset.card := (List.toFinset_card_of_nodup hnd).symm
    _ ≤ (Finset.range n).card := Finset.card_le_card hsub
    _ = n := Finset.card_range n

theorem moveToFront_none (s : State) (h e : Nat) : moveToFront s h none e = .ok (s, e) := rfl

theorem moveToFront_some (s : State) (h l e : Nat) (hh : s.m.hash ≠ none) :
    moveToFront s h (some l) e = .ok (mtfState s h l e, e) := by
  unfold moveToFront mtfState
  cases hs : s.m.hash with
  | none => exact absurd hs hh
  | some f => simp [hashGet]

theorem HitFrame.refl (s : State) : HitFrame s s :=
  ⟨rfl, rfl, rfl, rfl, rfl, rfl, rfl, fun _ => rfl⟩

theorem HitFrame.fields {s s' : State} (hf : HitFrame s s') (i : Nat) :
    (s'.ents i).nextAll = (s.ents i).nextAll ∧ (s'.ents i).stk = (s.ents i).stk ∧
    (s'.ents i).tag = (s.ents i).tag ∧ (s'.ents i).prev = (s.ents i).prev ∧
    (s'.ents i).acc = (s.ents i).acc ∧ (s'.ents i).acc2 = (s.ents i).acc2 := by
  have := hf.ents i
  simp only [profMapEntry.mk.injEq, true_and] at this
  exact this

theorem HitFrame.keyOf {s s' : State} (hf : HitFrame s s') (i : Nat) :
    keyOf s' i = keyOf s i := by
  unfold Pprof.keyOf entryStk
  rw [(hf.fields i).2.1, (hf.fields i).2.2.1, hf.stks]

theorem mtfState_frame (s : State) (h l e : Nat) : HitFrame s (mtfState s h l e) := by
  refine ⟨rfl, rfl, rfl, rfl, rfl, rfl, rfl, ?_⟩
  intro i
  unfold mtfState
  by_cases hie : i = e
  · subst hie
    by_cases hil : i = l
    · subst hil; simp [setEnt]
    · simp [setEnt, hil]
  · by_cases hil : i = l
    · subst hil; simp [setEnt, hie]
    · simp [setEnt, hie, hil]

theorem mtfState_next (s : State) (h l e : Nat) (hle : l ≠ e) (i : Nat) :
    ((mtfState s h l e).ents i).nextHash =
      if i = e then hashGet s.m.hash h
      else if i = l then (s.ents e).nextHash else (s.ents i).nextHash := by
  unfold mtfState
  by_cases hie : i = e
  · subst hie; simp [setEnt]
  · by_cases hil : i = l
    · subst hil; simp [setEnt, hie]
    · simp [setEnt, hie, hil]

/-- Move-to-front on the chain: `l1 ++ [x, e] ++ l2` becomes `e :: l1 ++ [x] ++ l2`. -/
theorem mtfState_chain (s : State) (h x e : Nat) (l1 l2 : List Nat)
    (hc : IsChain (fun i => (s.ents i).nextHash) (hashGet s.m.hash h) (l1 ++ x :: e :: l2))
    (hnd : (l1 ++ x :: e :: l2).Nodup) :
    IsChain (fun i => ((mtfState s h x e).ents i).nextHash)
      (hashGet (mtfState s h x e).m.hash h) (e :: (l1 ++ x :: l2)) := by
  have hnd' : (l1 ++ ([x] ++ ([e] ++ l2))).Nodup := by simpa using hnd
  rw [List.nodup_append] at hnd'
  obtain ⟨hnd1, hnd2, hdis1⟩ := hnd'
  rw [List.nodup_append] at hnd2
  obtain ⟨-, hnd3, hdis2⟩ := hnd2
  rw [List.nodup_append] at hnd3
  obtain ⟨-, hnd4, hdis3⟩ := hnd3
  have hxe : x ≠ e := by
    intro hxe
    exact hdis2 (List.mem_singleton_self x) (by simp [hxe])
  have hx1 : x ∉ l1 := fun hm => hdis1 hm (by simp)
  have he1 : e ∉ l1 := fun hm => hdis1 hm (by simp)
  have hx2 : x ∉ l2 := fun hm => hdis2 (List.mem_singleton_self x) (by simp [hm])
  have he2 : e ∉ l2 := fun hm => hdis3 (List.mem_singleton_self e) hm
  obtain ⟨q, hq1, hq2⟩ := IsSeg.split hc
  have hqx : q = some x := hq2.1
  have hxn : (s.ents x).nextHash = some e := hq2.2.1
  have hl2 : IsSeg (fun i => (s.ents i).nextHash) (s.ents e).nextHash l2 none := hq2.2.2
  have hget : hashGet (mtfState s h x e).m.hash h = some e := by
    show (if h = h then some e else hashGet s.m.hash h) = some e
    simp
  refine ⟨hget, ?_⟩
  show IsSeg _ ((mtfState s h x e).ents e).nextHash (l1 ++ x :: l2) none
  rw [mtfState_next s h x e hxe e, if_pos rfl]
  refine IsSeg.append (q := some x) ?_ ⟨rfl, ?_⟩
  · rw [← hqx]
    apply IsSeg.congr hq1
    intro i hi
    have hie : i ≠ e := fun hie => he1 (hie ▸ hi)
    have hix : i ≠ x := fun hix => hx1 (hix ▸ hi)
    rw [mtfState_next s h x e hxe i, if_neg hie, if_neg hix]
  · show IsSeg _ ((mtfState s h x e).ents x).nextHash l2 none
    rw [mtfState_next s h x e hxe x, if_neg hxe, if_pos rfl]
    apply IsSeg.congr hl2
    intro i hi
    have hie : i ≠ e := fun hie => he2 (hie ▸ hi)
    have hix : i ≠ x := fun hix => hx2 (hix ▸ hi)
    rw [mtfState_next s h x e hxe i, if_neg hie, if_neg hix]

theorem Inv_of_frame {s s' : State} (hinv : Inv s) (hf : HitFrame s s')
    (hz : ∀ i, s.m.free.off ≤ i → (s'.ents i).nextHash = (s.ents i).nextHash)
    (hb : ∀ h, ∃ l, IsChain (fun i => (s'.ents i).nextHash) (hashGet s'.m.hash h) l ∧ l.Nodup ∧
      ∀ e, e ∈ l ↔ (e < s.m.free.off ∧ hashOf (keyOf s e).1 (keyOf s e).2 = h)) :
    Inv s' := by
  have hfree := hf.free
  have hfs := hf.freeStk
  refine
    { free_cap := by rw [hfree]; exact hinv.free_cap
      free_top := by rw [hfree, hf.entTop]; exact hinv.free_top
      free_zero := ?_
      stk_cap := by rw [hfs]; exact hinv.stk_cap
      stk_top := by rw [hfs, hf.stkTop]; exact hinv.stk_top
      stk_len := by rw [hfs]; exact hinv.stk_len
      all_eq := by rw [hfree, hf.all]; exact hinv.all_eq
      last_eq := by rw [hfree, hf.last]; exact hinv.last_eq
      nextAll_eq := ?_
      estk_cap := ?_
      estk_len := ?_
      estk_lim := ?_
      estk_sep := ?_
      key_inj := ?_
      bucket := ?_ }
  · intro i hi
    rw [hfree] at hi
    have h1 := hf.ents i
    have h2 := hz i hi
    have h3 := hinv.free_zero i hi
    rw [h3] at h1 h2
    have h4 : s'.ents i = { s'.ents i with nextHash := none } := by
      rw [show (none : Option Nat) = zeroEntry.nextHash from rfl, ← h2]
    rw [h4, h1]
    rfl
  · intro i hi
    rw [hfree] at hi ⊢
    rw [(hf.fields i).1]
    exact hinv.nextAll_eq i hi
  · intro i hi
    rw [hfree] at hi
    rw [(hf.fields i).2.1]
    exact hinv.estk_cap i hi
  · intro i hi
    rw [hfree] at hi
    rw [(hf.fields i).2.1]
    exact hinv.estk_len i hi
  · intro i hi
    rw [hfree] at hi
    rw [(hf.fields i).2.1, hfs]
    exact hinv.estk_lim i hi
  · intro i j hij hj
    rw [hfree] at hj
    rw [(hf.fields i).2.1, (hf.fields j).2.1]
    exact hinv.estk_sep i j hij hj
  · intro i j hi hj hij
    rw [hfree] at hi hj
    rw [hf.keyOf i, hf.keyOf j] at hij
    exact hinv.key_inj i j hi hj hij
  · intro h
    obtain ⟨l, hl1, hl2, hl3⟩ := hb h
    refine ⟨l, hl1, hl2, ?_⟩
    intro e
    rw [hfree, hf.keyOf e]
    exact hl3 e

theorem Inv_mtfState (s : State) (h x e : Nat) (l1 l2 : List Nat) (hinv : Inv s)
    (hc : IsChain (fun i => (s.ents i).nextHash) (hashGet s.m.hash h) (l1 ++ x :: e :: l2))
    (hnd : (l1 ++ x :: e :: l2).Nodup)
    (hmem : ∀ i, i ∈ l1 ++ x :: e :: l2 ↔
      (i < s.m.free.off ∧ hashOf (keyOf s i).1 (keyOf s i).2 = h)) :
    Inv (mtfState s h x e) := by
  have hxe : x ≠ e := by
    intro hxe
    have : (x :: e :: l2).Nodup := (List.nodup_append.mp hnd).2.1
    rw [hxe] at this
    simp at this
  have hxm := (hmem x).mp (by simp)
  have hem := (hmem e).mp (by simp)
  apply Inv_of_frame hinv (mtfState_frame s h x e)
  · intro i hi
    rw [mtfState_next s h x e hxe i, if_neg (by omega), if_neg (by omega)]
  · intro h'
    by_cases hh : h' = h
    · subst hh
      refine ⟨e :: (l1 ++ x :: l2), mtfState_chain s h' x e l1 l2 hc hnd, ?_, ?_⟩
      · have hp : (e :: (l1 ++ x :: l2)).Perm (l1 ++ x :: e :: l2) := by
          have := (@List.perm_middle _ e (l1 ++ [x]) l2).symm
          simpa using this
        exact hp.nodup_iff.mpr hnd
      · intro i
        rw [← hmem i]
        simp only [List.mem_cons, List.mem_append]
        tauto
    · obtain ⟨l, hl1, hl2, hl3⟩ := hinv.bucket h'
      refine ⟨l, ?_, hl2, hl3⟩
      have hget : hashGet (mtfState s h x e).m.hash h' = hashGet s.m.hash h' := by
        show (if h' = h then some e else hashGet s.m.hash h') = _
        rw [if_neg hh]
      rw [hget]
      apply IsSeg.congr hl1
      intro i hi
      have hih := ((hl3 i).mp hi).2
      have hie : i ≠ e := by
        intro hie
        rw [hie, hem.2] at hih
        exact hh hih.symm
      have hix : i ≠ x := by
        intro hix
        rw [hix, hxm.2] at hih
        exact hh hih.symm
      show ((mtfState s h x e).ents i).nextHash = _
      rw [mtfState_next s h x e hxe i, if_neg hie, if_neg hix]

/-- In a bucket other than the one searched, a hit leaves the chain as it was. -/
theorem mtfState_other (s : State) (h x e : Nat) (hinv : Inv s) (hxe : x ≠ e)
    (hx : hashOf (keyOf s x).1 (keyOf s x).2 = h) (he : hashOf (keyOf s e).1 (keyOf s e).2 = h)
    (h' : Nat) (hh : h' ≠ h) (l : List Nat)
    (hl : IsChain (fun i => (s.ents i).nextHash) (hashGet s.m.hash h') l) :
    IsChain (fun i => ((mtfState s h x e).ents i).nextHash)
      (hashGet (mtfState s h x e).m.hash h') l := by
  obtain ⟨l', hl1, -, hl3⟩ := hinv.bucket h'
  have hll : l = l' := IsSeg.unique hl hl1
  subst hll
  have hget : hashGet (mtfState s h x e).m.hash h' = hashGet s.m.hash h' := by
    show (if h' = h then some e else hashGet s.m.hash h') = _
    rw [if_neg hh]
  rw [hget]
  apply IsSeg.congr hl
  intro i hi
  have hih := ((hl3 i).mp hi).2
  have hie : i ≠ e := by
    intro hie
    rw [hie, he] at hih
    exact hh hih.symm
  have hix : i ≠ x := by
    intro hix
    rw [hix, hx] at hih
    exact hh hih.symm
  show ((mtfState s h x e).ents i).nextHash = _
  rw [mtfState_next s h x e hxe i, if_neg hie, if_neg hix]

/-! ## `Lookup` on a well-formed state -/

/-- A hit: the entry with the key is returned, its bucket chain is rotated to put it first,
other chains stay, and nothing but the bucket table and `nextHash` links changes. -/
theorem Lookup_hit (s : State) (stk : List Nat) (tag e : Nat) (hinv : Inv s)
    (he : e < s.m.free.off) (hk : keyOf s e = (stk, tag)) :
    ∃ s', Lookup s stk tag = .ok (s', e) ∧ Inv s' ∧ HitFrame s s' ∧
      (∃ l1 l2,
        IsChain (fun i => (s.ents i).nextHash) (hashGet s.m.hash (hashOf stk tag))
          (l1 ++ e :: l2) ∧
        IsChain (fun i => (s'.ents i).nextHash) (hashGet s'.m.hash (hashOf stk tag))
          (e :: (l1 ++ l2))) ∧
      (∀ h', h' ≠ hashOf stk tag → ∀ l,
        IsChain (fun i => (s.ents i).nextHash) (hashGet s.m.hash h') l →
        IsChain (fun i => (s'.ents i).nextHash) (hashGet s'.m.hash h') l) := by
  obtain ⟨l, hl1, hl2, hl3⟩ := hinv.bucket (hashOf stk tag)
  have hel : e ∈ l := (hl3 e).mpr ⟨he, by rw [hk]⟩
  obtain ⟨l1, l2, hsplit⟩ := List.append_of_mem hel
  subst hsplit
  have hlt : ∀ i ∈ l1 ++ e :: l2, i < s.m.free.off := fun i hi => ((hl3 i).mp hi).1
  have hlen := length_le_of_nodup_lt hl2 hlt
  have hfuel : l1.length < s.entTop := by
    have := hinv.free_top
    simp only [List.length_append, List.length_cons] at hlen
    omega
  have hne : ∀ i ∈ l1, keyOf s i ≠ (stk, tag) := by
    intro i hi hki
    have hie : i = e :=
      hinv.key_inj i e (hlt i (List.mem_append_left _ hi)) he (hki.trans hk.symm)
    subst hie
    have := (List.nodup_append.mp hl2).2.2
    exact this hi (List.mem_cons_self _ _)
  have hsearch := search_hit s stk tag s.entTop none hl1 hfuel hne hk
  rcases List.eq_nil_or_concat l1 with hnil | ⟨l1', x, hcat⟩
  · subst hnil
    refine ⟨s, ?_, hinv, HitFrame.refl s, ⟨[], l2, hl1, hl1⟩, fun _ _ _ hl => hl⟩
    unfold Lookup
    simp only [hsearch]
    rfl
  · rw [List.concat_eq_append] at hcat
    subst hcat
    have hlast : lastOf none (l1' ++ [x]) = some x := by
      simp [lastOf]
    rw [hlast] at hsearch
    have hl1' : IsChain (fun i => (s.ents i).nextHash) (hashGet s.m.hash (hashOf stk tag))
        (l1' ++ x :: e :: l2) := by
      simpa using hl1
    have hl2' : (l1' ++ x :: e :: l2).Nodup := by simpa using hl2
    have hl3' : ∀ i, i ∈ l1' ++ x :: e :: l2 ↔
        (i < s.m.free.off ∧ hashOf (keyOf s i).1 (keyOf s i).2 = hashOf stk tag) := by
      intro i
      rw [← hl3 i]
      simp
    have hhash : s.m.hash ≠ none := by
      intro hn
      have hq := IsSeg.split hl1
      obtain ⟨q, hq1, hq2⟩ := hq
      have : hashGet s.m.hash (hashOf stk tag) = none := by rw [hn]; rfl
      rw [this] at hl1'
      cases l1' with
      | nil => exact absurd hl1'.1 (by simp)
      | cons a l => exact absurd hl1'.1 (by simp)
    have hxe : x ≠ e := by
      intro hxe
      have : (x :: e :: l2).Nodup := (List.nodup_append.mp hl2').2.1
      rw [hxe] at this
      simp at this
    have hxm := ((hl3' x).mp (by simp)).2
    have hem := ((hl3' e).mp (by simp)).2
    refine ⟨mtfState s (hashOf stk tag) x e, ?_,
      Inv_mtfState s _ x e l1' l2 hinv hl1' hl2' hl3', mtfState_frame s _ x e,
      ⟨l1' ++ [x], l2, hl1, ?_⟩, ?_⟩
    · unfold Lookup
      simp only [hsearch]
      exact moveToFront_some s _ x e hhash
    · have := mtfState_chain s (hashOf stk tag) x e l1' l2 hl1' hl2'
      simpa using this
    · intro h' hh l hl
      exact mtfState_other s _ x e hinv hxe hxm hem h' hh l hl

/-- A miss on a stack of at most 1024 addresses: a new entry is added. -/
theorem Lookup_miss (s : State) (stk : List Nat) (tag : Nat) (hinv : Inv s)
    (hlen : stk.length ≤ 1024) (hk : ∀ i, i < s.m.free.off → keyOf s i ≠ (stk, tag)) :
    Lookup s stk tag = .ok (addState s (hashOf stk tag) stk tag, s.m.free.off) := by
  obtain ⟨l, hl1, hl2, hl3⟩ := hinv.bucket (hashOf stk tag)
  have hlt : ∀ i ∈ l, i < s.m.free.off := fun i hi => ((hl3 i).mp hi).1
  have hfuel : l.length ≤ s.entTop := by
    have := hinv.free_top
    have := length_le_of_nodup_lt hl2 hlt
    omega
  have hsearch := search_miss s stk tag s.entTop none hl1 hfuel (fun i hi => hk i (hlt i hi))
  unfold Lookup
  simp only [hsearch]
  exact addEntry_eq s _ stk tag hinv hlen

/-- A miss on a stack of more than 1024 addresses: the fresh 1024-slot chunk is too small and
the slice expression `m.freeStk[:len(stk):len(stk)]` panics. -/
theorem addEntry_long (s : State) (h : Nat) (stk : List Nat) (tag : Nat) (hinv : Inv s)
    (hlen : 1024 < stk.length) : addEntry s h stk tag = .error .sliceBounds := by
  have hsl := hinv.stk_len
  have hc := hinv.free_cap
  have hg : s.m.freeStk.len < stk.length := by omega
  have hnot : ¬ stk.length ≤ 1024 := by omega
  by_cases hf : s.m.free.len < 1
  · simp [addEntry, growFree, growFreeStk, hf, hg, Slice.drop, Slice.take3, hnot, bind,
      Except.bind, pure, Except.pure]
  · have hf1 : 1 ≤ s.m.free.len := by omega
    have hf2 : 0 < s.m.free.len := by omega
    simp [addEntry, growFree, growFreeStk, hf, hg, Slice.drop, Slice.take3, hnot, bind,
      Except.bind, pure, Except.pure, hf1, hf2]

theorem Lookup_long (s : State) (stk : List Nat) (tag : Nat) (hinv : Inv s)
    (hlen : 1024 < stk.length) : Lookup s stk tag = .error .sliceBounds := by
  obtain ⟨l, hl1, hl2, hl3⟩ := hinv.bucket (hashOf stk tag)
  have hlt : ∀ i ∈ l, i < s.m.free.off := fun i hi => ((hl3 i).mp hi).1
  have hfuel : l.length ≤ s.entTop := by
    have := hinv.free_top
    have := length_le_of_nodup_lt hl2 hlt
    omega
  have hk : ∀ i ∈ l, keyOf s i ≠ (stk, tag) := by
    intro i hi hki
    have h1 := hinv.estk_len i (hlt i hi)
    have h2 := ((keyOf_eq_iff s i stk tag).mp hki).1
    omega
  have hsearch := search_miss s stk tag s.entTop none hl1 hfuel hk
  unfold Lookup
  simp only [hsearch]
  exact addEntry_long s _ stk tag hinv hlen

theorem Lookup_post {s s' : State} {stk : List Nat} {tag e : Nat} (hinv : Inv s)
    (hL : Lookup s stk tag = .ok (s', e)) : Post s stk tag s' e := by
  by_cases hex : ∃ i, i < s.m.free.off ∧ keyOf s i = (stk, tag)
  · obtain ⟨i, hi, hki⟩ := hex
    obtain ⟨s1, h1, h2, h3, -, -⟩ := Lookup_hit s stk tag i hinv hi hki
    rw [h1] at hL
    simp only [Except.ok.injEq, Prod.mk.injEq] at hL
    obtain ⟨rfl, rfl⟩ := hL
    have hfree := h3.free
    refine
      { inv := h2
        len := ?_
        key := by rw [h3.keyOf]; exact hki
        ret := by rw [hfree]; exact hi
        mono := by rw [hfree]
        keys := fun j _ => h3.keyOf j
        fields := fun j _ => (h3.fields j).2
        fstk := by rw [h3.freeStk]
        stks := fun a _ => by rw [h3.stks]
        cases := Or.inl ⟨hi, hki, h3⟩ }
    have := hinv.estk_len i hi
    have := ((keyOf_eq_iff s i stk tag).mp hki).1
    omega
  · have hk : ∀ i, i < s.m.free.off → keyOf s i ≠ (stk, tag) :=
      fun i hi hki => hex ⟨i, hi, hki⟩
    rcases Nat.lt_or_ge 1024 stk.length with hlen | hlen
    · rw [Lookup_long s stk tag hinv hlen] at hL
      cases hL
    · rw [Lookup_miss s stk tag hinv hlen hk] at hL
      simp only [Except.ok.injEq, Prod.mk.injEq] at hL
      obtain ⟨rfl, rfl⟩ := hL
      have hoff := addState_free_off s (hashOf stk tag) stk tag
      refine
        { inv := Inv_addState s stk tag hinv hlen hk
          len := hlen
          key := addState_keyOf_new s _ stk tag
          ret := by rw [hoff]; omega
          mono := by rw [hoff]; omega
          keys := fun j hj => addState_keyOf_old s _ stk tag hinv j hj
          fields := fun j hj => (addState_ents_frame s _ stk tag j (by omega)).2
          fstk := ?_
          stks := fun a ha => addState_stks_old s _ stk tag hinv a ha
          cases := Or.inr ⟨rfl, hk, rfl⟩ }
      rw [addState_freeStk_off]
      have := newStkOff_ge s hinv stk.length
      omega

/-- `Lookup` returns on every well-formed state when the stack has at most 1024 addresses. -/
theorem Lookup_ok (s : State) (stk : List Nat) (tag : Nat) (hinv : Inv s)
    (hlen : stk.length ≤ 1024) : ∃ s' e, Lookup s stk tag = .ok (s', e) := by
  by_cases hex : ∃ i, i < s.m.free.off ∧ keyOf s i = (stk, tag)
  · obtain ⟨i, hi, hki⟩ := hex
    obtain ⟨s1, h1, -⟩ := Lookup_hit s stk tag i hinv hi hki
    exact ⟨s1, i, h1⟩
  · have hk : ∀ i, i < s.m.free.off → keyOf s i ≠ (stk, tag) :=
      fun i hi hki => hex ⟨i, hi, hki⟩
    exact ⟨_, _, Lookup_miss s stk tag hinv hlen hk⟩

theorem Inv_of_reachable {s : State} (hr : Reachable s) : Inv s := by
  induction hr with
  | empty => exact Inv_empty
  | step _ hL ih => exact (Lookup_post ih hL).inv

theorem Later_of_steps {s s' : State} (hinv : Inv s) (hs : Steps s s') : Later s s' := by
  induction hs with
  | refl => exact ⟨hinv, le_refl _, fun _ _ => rfl, fun _ _ => ⟨rfl, rfl⟩, le_refl _, fun _ _ => rfl⟩
  | step _ hL ih =>
    have hp := Lookup_post ih.inv hL
    refine ⟨hp.inv, le_trans ih.mono hp.mono, ?_, ?_, le_trans ih.fstk hp.fstk, ?_⟩
    · intro i hi
      rw [hp.keys i (lt_of_lt_of_le hi ih.mono), ih.keys i hi]
    · intro i hi
      have h1 := hp.fields i (lt_of_lt_of_le hi ih.mono)
      have h2 := ih.fields i hi
      exact ⟨h1.1.trans h2.1, h1.2.1.trans h2.2⟩
    · intro a ha
      rw [hp.stks a (lt_of_lt_of_le ha ih.fstk), ih.stks a ha]

/-! ## The global chain -/

theorem isSeg_range' (next : Nat → Option Nat) (n : Nat)
    (hn : ∀ i, i < n → next i = if i + 1 < n then some (i + 1) else none) (d k : Nat)
    (hk : k + d = n) :
    IsSeg next (if k < n then some k else none) (List.range' k d) none := by
  induction d generalizing k with
  | zero =>
    have : ¬ k < n := by omega
    simp [List.range', IsSeg, this]
  | succ d ih =>
    have hlt : k < n := by omega
    refine ⟨by rw [if_pos hlt], ?_⟩
    rw [hn k hlt]
    exact ih (k + 1) (by omega)

theorem allChain_eq {s : State} (hinv : Inv s) :
    allChain s = some (List.range s.m.free.off) := by
  have hseg := isSeg_range' (fun i => (s.ents i).nextAll) s.m.free.off hinv.nextAll_eq
    s.m.free.off 0 (by omega)
  have hall : s.m.all = if 0 < s.m.free.off then some 0 else none := by
    rw [hinv.all_eq]
    by_cases h0 : s.m.free.off = 0
    · simp [h0]
    · have : 0 < s.m.free.off := by omega
      simp [h0, this]
  rw [← hall, ← List.range_eq_range'] at hseg
  have := hinv.free_top
  exact walk_of_isChain hseg (by simp; omega)

/-! ## Keys in creation order -/

theorem mem_keysOf {s : State} {k : List Nat × Nat} :
    k ∈ keysOf s ↔ ∃ i, i < s.m.free.off ∧ keyOf s i = k := by
  simp [keysOf]

theorem keysOf_nodup {s : State} (hinv : Inv s) : (keysOf s).Nodup := by
  unfold keysOf
  apply List.Nodup.map_on _ (List.nodup_range _)
  intro i hi j hj hij
  exact hinv.key_inj i j (List.mem_range.mp hi) (List.mem_range.mp hj) hij

theorem keysOf_post {s s' : State} {stk : List Nat} {tag e : Nat} (hp : Post s stk tag s' e) :
    keysOf s' = addKey (keysOf s) (stk, tag) := by
  rcases hp.cases with ⟨he, hk, hf⟩ | ⟨he, hk, hs⟩
  · have hmem : (stk, tag) ∈ keysOf s := mem_keysOf.mpr ⟨e, he, hk⟩
    rw [addKey, if_pos hmem]
    unfold keysOf
    rw [hf.free]
    exact List.map_congr_left (fun i _ => hf.keyOf i)
  · have hmem : (stk, tag) ∉ keysOf s := by
      intro hm
      obtain ⟨i, hi, hki⟩ := mem_keysOf.mp hm
      exact hk i hi hki
    rw [addKey, if_neg hmem]
    have hoff : s'.m.free.off = s.m.free.off + 1 := by
      rw [hs]; exact addState_free_off s _ stk tag
    have hke : keyOf s' s.m.free.off = (stk, tag) := he ▸ hp.key
    unfold keysOf
    rw [hoff, List.range_succ, List.map_append, List.map_singleton, hke]
    congr 1
    exact List.map_congr_left (fun i hi => hp.keys i (List.mem_range.mp hi))

theorem Steps.head {s s1 s2 : State} {stk : List Nat} {tag e : Nat}
    (hL : Lookup s stk tag = .ok (s1, e)) (hs : Steps s1 s2) : Steps s s2 := by
  induction hs with
  | refl => exact Steps.step Steps.refl hL
  | step _ hL' ih => exact Steps.step ih hL'

theorem lookups_spec (ks : List (List Nat × Nat)) (s : State) (hinv : Inv s)
    (hlen : ∀ k ∈ ks, k.1.length ≤ 1024) :
    ∃ s', lookups s ks = .ok s' ∧ Inv s' ∧ Steps s s' ∧
      keysOf s' = ks.foldl addKey (keysOf s) := by
  induction ks generalizing s with
  | nil => exact ⟨s, rfl, hinv, Steps.refl, rfl⟩
  | cons k ks ih =>
    obtain ⟨s1, e, hL⟩ := Lookup_ok s k.1 k.2 hinv (hlen k (List.mem_cons_self k ks))
    have hp := Lookup_post hinv hL
    obtain ⟨s2, h1, h2, h3, h4⟩ := ih s1 hp.inv (fun k' hk' => hlen k' (List.mem_cons_of_mem k hk'))
    refine ⟨s2, ?_, h2, ?_, ?_⟩
    · simp only [lookups, hL]
      exact h1
    · exact Steps.head hL h3
    · rw [h4, keysOf_post hp]
      rfl

theorem Reachable_of_steps {s s' : State} (hr : Reachable s) (hs : Steps s s') :
    Reachable s' := by
  induction hs with
  | refl => exact hr
  | step _ hL ih => exact Reachable.step ih hL

theorem foldl_addKey_nodup (ks K : List (List Nat × Nat)) (hnd : (K ++ ks).Nodup) :
    ks.foldl addKey K = K ++ ks := by
  induction ks generalizing K with
  | nil => simp
  | cons k ks ih =>
    have hk : k ∉ K := by
      intro hk
      have := (List.nodup_append.mp hnd).2.2
      exact this hk (List.mem_cons_self k ks)
    have hnd' : ((K ++ [k]) ++ ks).Nodup := by simpa using hnd
    simp only [List.foldl_cons, addKey, if_neg hk]
    rw [ih (K ++ [k]) hnd']
    simp

theorem foldl_addKey_props (ks K : List (List Nat × Nat)) (hK : K.Nodup) :
    (ks.foldl addKey K).Nodup ∧ ∀ k, k ∈ ks.foldl addKey K ↔ (k ∈ K ∨ k ∈ ks) := by
  induction ks generalizing K with
  | nil => simp [hK]
  | cons a ks ih =>
    simp only [List.foldl_cons]
    by_cases ha : a ∈ K
    · have hadd : addKey K a = K := by simp [addKey, ha]
      rw [hadd]
      obtain ⟨h1, h2⟩ := ih K hK
      refine ⟨h1, fun k => ?_⟩
      rw [h2 k, List.mem_cons]
      constructor
      · rintro (h | h)
        · exact Or.inl h
        · exact Or.inr (Or.inr h)
      · rintro (h | h | h)
        · exact Or.inl h
        · exact Or.inl (h ▸ ha)
        · exact Or.inr h
    · have hadd : addKey K a = K ++ [a] := by simp [addKey, ha]
      rw [hadd]
      have hK' : (K ++ [a]).Nodup := by
        rw [List.nodup_append]
        refine ⟨hK, List.nodup_singleton a, ?_⟩
        intro x hx hx'
        rw [List.mem_singleton] at hx'
        exact ha (hx' ▸ hx)
      obtain ⟨h1, h2⟩ := ih (K ++ [a]) hK'
      refine ⟨h1, fun k => ?_⟩
      rw [h2 k, List.mem_append, List.mem_singleton, List.mem_cons]
      tauto

theorem foldl_addKey_length (ks : List (List Nat × Nat)) :
    (ks.foldl addKey []).length = ks.dedup.length := by
  obtain ⟨h1, h2⟩ := foldl_addKey_props ks [] List.nodup_nil
  rw [← List.card_toFinset, ← List.toFinset_card_of_nodup h1]
  congr 1
  ext k
  simp [h2 k]

/-! ## The claims about `Lookup` -/

/-- C1: in every reachable map, looking up `(S, T)` with `|S| ≤ 1024` returns an entry, and a
later lookup of an element-wise equal stack `S'` with the same tag, after any number of other
returning lookups, returns the very same entry pointer and creates nothing: the global chain,
the free entry pool, the free slot pool and the heap frontiers are as before that call. -/
theorem lookup_same_key_same_entry (s : State) (hr : Reachable s) (S : List Nat) (T : Nat)
    (hS : S.length ≤ 1024) (S' : List Nat) (hS' : ∀ j : Nat, S'[j]? = S[j]?) :
    ∃ s1 e, Lookup s S T = .ok (s1, e) ∧
      ∀ s2, Steps s1 s2 →
        ∃ s3, Lookup s2 S' T = .ok (s3, e) ∧ allChain s3 = allChain s2 ∧
          s3.m.free = s2.m.free ∧ s3.m.freeStk = s2.m.freeStk ∧
          s3.entTop = s2.entTop ∧ s3.stkTop = s2.stkTop := by
  have hinv := Inv_of_reachable hr
  have hSS : S' = S := List.ext_getElem? hS'
  subst hSS
  obtain ⟨s1, e, hL⟩ := Lookup_ok s S' T hinv hS
  have hp := Lookup_post hinv hL
  refine ⟨s1, e, hL, fun s2 hst => ?_⟩
  have hl := Later_of_steps hp.inv hst
  have hk2 : keyOf s2 e = (S', T) := by rw [hl.keys e hp.ret]; exact hp.key
  obtain ⟨s3, h3, hinv3, hf3, -, -⟩ :=
    Lookup_hit s2 S' T e hl.inv (lt_of_lt_of_le hp.ret hl.mono) hk2
  refine ⟨s3, h3, ?_, hf3.free, hf3.freeStk, hf3.entTop, hf3.stkTop⟩
  rw [allChain_eq hinv3, allChain_eq hl.inv, hf3.free]

/-- Witness for C1 on the zero-value map with the stack `[1, 2, 3]` and tag `0`. -/
theorem lookup_same_key_same_entry_witness :
    Reachable State.empty ∧ [1, 2, 3].length ≤ 1024 ∧
    ∃ s1 e, Lookup State.empty [1, 2, 3] 0 = .ok (s1, e) ∧
      ∀ s2, Steps s1 s2 →
        ∃ s3, Lookup s2 [1, 2, 3] 0 = .ok (s3, e) ∧ allChain s3 = allChain s2 ∧
          s3.m.free = s2.m.free ∧ s3.m.freeStk = s2.m.freeStk ∧
          s3.entTop = s2.entTop ∧ s3.stkTop = s2.stkTop :=
  ⟨Reachable.empty, by decide,
    lookup_same_key_same_entry State.empty Reachable.empty [1, 2, 3] 0 (by decide) [1, 2, 3]
      (fun _ => rfl)⟩

/-- C2: in every reachable map, two keys (stacks of at most 1024 addresses) that differ in
length, in tag or at some address position get distinct entries, whatever returning lookups
happen in between; each entry carries its own key.  This holds also for keys with the same
bucket value, such as `([0, 1], 0)` and `([1], 0)`, whose hashes are equal. -/
theorem lookup_distinct_keys_distinct_entries (s : State) (hr : Reachable s)
    (S1 : List Nat) (T1 : Nat) (S2 : List Nat) (T2 : Nat)
    (h1 : S1.length ≤ 1024) (h2 : S2.length ≤ 1024)
    (hne : S1.length ≠ S2.length ∨ T1 ≠ T2 ∨ ∃ j : Nat, S1[j]? ≠ S2[j]?) :
    hashOf [0, 1] 0 = hashOf [1] 0 ∧
    ∃ s1 e1, Lookup s S1 T1 = .ok (s1, e1) ∧
      ∀ s2, Steps s1 s2 →
        ∃ s3 e2, Lookup s2 S2 T2 = .ok (s3, e2) ∧ e1 ≠ e2 ∧
          keyOf s3 e1 = (S1, T1) ∧ keyOf s3 e2 = (S2, T2) := by
  refine ⟨by decide, ?_⟩
  have hinv := Inv_of_reachable hr
  have hkey : (S1, T1) ≠ (S2, T2) := by
    intro heq
    simp only [Prod.mk.injEq] at heq
    obtain ⟨hs, ht⟩ := heq
    subst hs
    rcases hne with h | h | ⟨j, h⟩
    · exact h rfl
    · exact h ht
    · exact h rfl
  obtain ⟨s1, e1, hL⟩ := Lookup_ok s S1 T1 hinv h1
  have hp := Lookup_post hinv hL
  refine ⟨s1, e1, hL, fun s2 hst => ?_⟩
  have hl := Later_of_steps hp.inv hst
  obtain ⟨s3, e2, hL2⟩ := Lookup_ok s2 S2 T2 hl.inv h2
  have hp2 := Lookup_post hl.inv hL2
  have hk1 : keyOf s3 e1 = (S1, T1) := by
    rw [hp2.keys e1 (lt_of_lt_of_le hp.ret hl.mono), hl.keys e1 hp.ret]
    exact hp.key
  refine ⟨s3, e2, hL2, ?_, hk1, hp2.key⟩
  intro he
  rw [he, hp2.key] at hk1
  exact hkey hk1.symm

/-- Witness for C2 on the zero-value map with the colliding keys `([0, 1], 0)` and
`([1], 0)`. -/
theorem lookup_distinct_keys_distinct_entries_witness :
    hashOf [0, 1] 0 = hashOf [1] 0 ∧
    ∃ s1 e1, Lookup State.empty [0, 1] 0 = .ok (s1, e1) ∧
      ∀ s2, Steps s1 s2 →
        ∃ s3 e2, Lookup s2 [1] 0 = .ok (s3, e2) ∧ e1 ≠ e2 ∧
          keyOf s3 e1 = ([0, 1], 0) ∧ keyOf s3 e2 = ([1], 0) :=
  lookup_distinct_keys_distinct_entries State.empty Reachable.empty [0, 1] 0 [1] 0
    (by decide) (by decide) (Or.inl (by decide))

/-- C3 as the code has it: in every reachable map (the zero-value map with a nil hash table
and empty pools included) `Lookup` on a stack of at most 1024 addresses and any tag returns an
entry, one that lies on the global chain of the state it leaves, and takes no failing path. -/
theorem lookup_returns_on_short_stack (s : State) (hr : Reachable s) (stk : List Nat)
    (tag : Nat) (hlen : stk.length ≤ 1024) :
    ∃ s' e, Lookup s stk tag = .ok (s', e) ∧ ∃ G, allChain s' = some G ∧ e ∈ G := by
  have hinv := Inv_of_reachable hr
  obtain ⟨s', e, hL⟩ := Lookup_ok s stk tag hinv hlen
  have hp := Lookup_post hinv hL
  exact ⟨s', e, hL, _, allChain_eq hp.inv, List.mem_range.mpr hp.ret⟩

/-- Witness for C3 on the zero-value map and the empty stack. -/
theorem lookup_returns_on_short_stack_witness :
    State.empty.m.hash.isNone = true ∧
    ∃ s' e, Lookup State.empty [] 7 = .ok (s', e) ∧ ∃ G, allChain s' = some G ∧ e ∈ G :=
  ⟨rfl, lookup_returns_on_short_stack State.empty Reachable.empty [] 7 (by decide)⟩

/-- Counterexample to C3 as stated: on the zero-value map a stack of 1025 addresses makes
`Lookup` panic in `m.freeStk[:len(stk):len(stk)]`, the fresh chunk having 1024 slots. -/
theorem lookup_long_stack_panics :
    Reachable State.empty ∧
    Lookup State.empty (List.replicate 1025 0) 0 = .error .sliceBounds :=
  ⟨Reachable.empty, Lookup_long State.empty (List.replicate 1025 0) 0 Inv_empty
    (by rw [List.length_replicate]; decide)⟩

/-- C4: in every reachable map, the entry returned for `(S, T)` with `|S| ≤ 1024` (the empty
stack included) has a stack of length `|S|` whose slots read `S`, and has tag `T`, whether the
entry was found or newly created. -/
theorem lookup_entry_carries_key (s : State) (hr : Reachable s) (S : List Nat) (T : Nat)
    (hS : S.length ≤ 1024) :
    ∃ s' e, Lookup s S T = .ok (s', e) ∧ entryStk s' e = S ∧
      (s'.ents e).stk.len = S.length ∧ (s'.ents e).tag = T := by
  have hinv := Inv_of_reachable hr
  obtain ⟨s', e, hL⟩ := Lookup_ok s S T hinv hS
  have hp := Lookup_post hinv hL
  have hk := hp.key
  refine ⟨s', e, hL, congrArg Prod.fst hk, ?_, congrArg Prod.snd hk⟩
  exact ((keyOf_eq_iff s' e S T).mp hk).1

/-- Witness for C4 on the zero-value map with the stack `[1, 2, 3]` and tag `0`. -/
theorem lookup_entry_carries_key_witness :
    ∃ s' e, Lookup State.empty [1, 2, 3] 0 = .ok (s', e) ∧ entryStk s' e = [1, 2, 3] ∧
      (s'.ents e).stk.len = [1, 2, 3].length ∧ (s'.ents e).tag = 0 :=
  lookup_entry_carries_key State.empty Reachable.empty [1, 2, 3] 0 (by decide)

/-- C5: the global chain of the zero-value map is empty, and after `Lookup` on pairwise
distinct keys `ks` (stacks of at most 1024 addresses), all of which return, the chain from
`m.all` along `nextAll` ends at nil, has exactly `|ks|` nodes, none twice, and its `i`-th node
carries the `i`-th key. -/
theorem all_chain_lists_distinct_keys_in_order (ks : List (List Nat × Nat)) (hnd : ks.Nodup)
    (hlen : ∀ k ∈ ks, k.1.length ≤ 1024) :
    allChain State.empty = some [] ∧
    ∃ s G, lookups State.empty ks = .ok s ∧ allChain s = some G ∧
      G.length = ks.length ∧ G.Nodup ∧ G.map (keyOf s) = ks := by
  refine ⟨rfl, ?_⟩
  obtain ⟨s, h1, h2, -, h4⟩ := lookups_spec ks State.empty Inv_empty hlen
  have hk : keysOf s = ks := by
    rw [h4]
    exact foldl_addKey_nodup ks [] (by simpa using hnd)
  refine ⟨s, List.range s.m.free.off, h1, allChain_eq h2, ?_, List.nodup_range _, hk⟩
  have := congrArg List.length hk
  simpa [keysOf] using this

/-- Witness for C5 with the keys `([1, 2], 5)` and `([2, 1], 5)`. -/
theorem all_chain_lists_distinct_keys_in_order_witness :
    allChain State.empty = some [] ∧
    ∃ s G, lookups State.empty [([1, 2], 5), ([2, 1], 5)] = .ok s ∧ allChain s = some G ∧
      G.length = [([1, 2], 5), ([2, 1], 5)].length ∧ G.Nodup ∧
      G.map (keyOf s) = [([1, 2], 5), ([2, 1], 5)] :=
  all_chain_lists_distinct_keys_in_order [([1, 2], 5), ([2, 1], 5)] (by decide) (by decide)

/-- C6: after any finite sequence `ks` of `Lookup` calls on the zero-value map (keys may
repeat, stacks of at most 1024 addresses) the global chain has as many nodes as there are
distinct keys in `ks`, no two nodes carry the same key, and one more `Lookup` leaves a chain
that extends the previous one, so it is never shorter. -/
theorem all_chain_counts_distinct_keys (ks : List (List Nat × Nat))
    (hlen : ∀ k ∈ ks, k.1.length ≤ 1024) (stk : List Nat) (tag : Nat)
    (hstk : stk.length ≤ 1024) :
    ∃ s G, lookups State.empty ks = .ok s ∧ allChain s = some G ∧
      G.length = ks.dedup.length ∧ (G.map (keyOf s)).Nodup ∧
      ∃ s' e G', Lookup s stk tag = .ok (s', e) ∧ allChain s' = some G' ∧
        G <+: G' ∧ G.length ≤ G'.length := by
  obtain ⟨s, h1, h2, -, h4⟩ := lookups_spec ks State.empty Inv_empty hlen
  have hk : keysOf s = ks.foldl addKey [] := h4
  obtain ⟨s', e, hL⟩ := Lookup_ok s stk tag h2 hstk
  have hp := Lookup_post h2 hL
  have hpre : List.range s.m.free.off <+: List.range s'.m.free.off := by
    have : List.range s.m.free.off = (List.range s'.m.free.off).take s.m.free.off := by
      rw [List.take_range, Nat.min_eq_left hp.mono]
    rw [this]
    exact List.take_prefix _ _
  refine ⟨s, List.range s.m.free.off, h1, allChain_eq h2, ?_, keysOf_nodup h2,
    s', e, List.range s'.m.free.off, hL, allChain_eq hp.inv, hpre, hpre.length_le⟩
  have := congrArg List.length hk
  rw [foldl_addKey_length] at this
  simpa [keysOf] using this

/-- Witness for C6 with a sequence that repeats a key. -/
theorem all_chain_counts_distinct_keys_witness :
    ∃ s G, lookups State.empty [([1, 2], 5), ([2, 1], 5), ([1, 2], 5)] = .ok s ∧
      allChain s = some G ∧
      G.length = [([1, 2], 5), ([2, 1], 5), ([1, 2], 5)].dedup.length ∧
      (G.map (keyOf s)).Nodup ∧
      ∃ s' e G', Lookup s [2, 1] 5 = .ok (s', e) ∧ allChain s' = some G' ∧
        G <+: G' ∧ G.length ≤ G'.length :=
  all_chain_counts_distinct_keys [([1, 2], 5), ([2, 1], 5), ([1, 2], 5)] (by decide) [2, 1] 5
    (by decide)

/-- C7: in every reachable map with global chain `G`, the slot ranges of two distinct entries
of `G` do not overlap; a `Lookup` of a stack of at most 1024 addresses returns; and every
`Lookup` that returns (hit, or miss with or without a fresh chunk) leaves the slice header, the
stack content and the tag of every entry of `G` as they were. -/
theorem lookup_keeps_entry_stack_and_tag (s : State) (hr : Reachable s) (G : List Nat)
    (hG : allChain s = some G) :
    (∀ e1 ∈ G, ∀ e2 ∈ G, e1 ≠ e2 →
      (s.ents e1).stk.off + (s.ents e1).stk.len ≤ (s.ents e2).stk.off ∨
      (s.ents e2).stk.off + (s.ents e2).stk.len ≤ (s.ents e1).stk.off) ∧
    ∀ stk tag,
      (stk.length ≤ 1024 → ∃ s' r, Lookup s stk tag = .ok (s', r)) ∧
      ∀ s' r, Lookup s stk tag = .ok (s', r) →
        ∀ e ∈ G, (s'.ents e).stk = (s.ents e).stk ∧ entryStk s' e = entryStk s e ∧
          (s'.ents e).tag = (s.ents e).tag := by
  have hinv := Inv_of_reachable hr
  have hGe : G = List.range s.m.free.off := by
    rw [allChain_eq hinv] at hG
    exact (Option.some.inj hG).symm
  subst hGe
  refine ⟨?_, fun stk tag => ⟨fun hlen => Lookup_ok s stk tag hinv hlen, ?_⟩⟩
  · intro e1 h1 e2 h2 hne
    rw [List.mem_range] at h1 h2
    rcases Nat.lt_or_gt_of_ne hne with hlt | hgt
    · exact Or.inl (hinv.estk_sep e1 e2 hlt h2)
    · exact Or.inr (hinv.estk_sep e2 e1 hgt h1)
  · intro s' r hL e he
    rw [List.mem_range] at he
    have hp := Lookup_post hinv hL
    have hk := hp.keys e he
    exact ⟨(hp.fields e he).1, congrArg Prod.fst hk, (hp.fields e he).2.1⟩

/-- Witness for C7 on the map that holds one entry, for `([1, 2, 3], 0)`. -/
theorem lookup_keeps_entry_stack_and_tag_witness :
    ∃ s, Lookup State.empty [1, 2, 3] 0 = .ok (s, 0) ∧ allChain s = some [0] ∧
      entryStk s 0 = [1, 2, 3] ∧
      ∀ stk tag,
        (stk.length ≤ 1024 → ∃ s' r, Lookup s stk tag = .ok (s', r)) ∧
        ∀ s' r, Lookup s stk tag = .ok (s', r) →
          ∀ e ∈ [0], (s'.ents e).stk = (s.ents e).stk ∧ entryStk s' e = entryStk s e ∧
            (s'.ents e).tag = (s.ents e).tag :=
  ⟨addState State.empty (hashOf [1, 2, 3] 0) [1, 2, 3] 0,
    Lookup_miss State.empty [1, 2, 3] 0 Inv_empty (by decide) (fun i hi => absurd hi (Nat.not_lt_zero i)),
    by decide, by decide,
    (lookup_keeps_entry_stack_and_tag _
      (Reachable.step Reachable.empty
        (Lookup_miss State.empty [1, 2, 3] 0 Inv_empty (by decide)
          (fun i hi => absurd hi (Nat.not_lt_zero i))))
      [0] (by decide)).2⟩

/-! ## The hash -/

theorem rot_expr_eq (h : Nat) (hh : h < 2 ^ 64) :
    ((h <<< 8) % wordMod) ||| (h >>> (8 * (sizeofUintptr - 1))) = rotateLeft 64 8 h := by
  have hw : wordMod = 2 ^ 56 * 2 ^ 8 := by norm_num [wordMod, sizeofUintptr]
  have hs : 8 * (sizeofUintptr - 1) = 56 := by norm_num [sizeofUintptr]
  have hb : h / 2 ^ 56 < 2 ^ 8 := by
    apply Nat.div_lt_of_lt_mul
    calc h < 2 ^ 64 := hh
      _ = 2 ^ 56 * 2 ^ 8 := by norm_num
  rw [hw, hs, Nat.shiftLeft_eq, Nat.shiftRight_eq_div_pow, Nat.mul_mod_mul_right]
  unfold rotateLeft
  rw [Nat.mod_eq_of_lt hh, show 64 - 8 = 56 from rfl, Nat.mul_comm (h % 2 ^ 56) (2 ^ 8)]
  exact (Nat.mul_add_lt_is_or hb _).symm

theorem hashStep_lt (h x : Nat) : hashStep h x < 2 ^ 64 := by
  unfold hashStep
  exact Nat.mod_lt _ (by norm_num [wordMod, sizeofUintptr])

theorem hashStep_eq (h x : Nat) (hh : h < 2 ^ 64) :
    hashStep h x = (rotateLeft 64 8 h + x * 41) % 2 ^ 64 := by
  have hw : wordMod = 2 ^ 64 := by norm_num [wordMod, sizeofUintptr]
  unfold hashStep
  simp only
  rw [rot_expr_eq h hh, hw, Nat.add_mod_mod]

theorem foldl_hashStep_eq (xs : List Nat) (h : Nat) (hh : h < 2 ^ 64) :
    xs.foldl hashStep h = xs.foldl (fun h x => (rotateLeft 64 8 h + x * 41) % 2 ^ 64) h ∧
      xs.foldl hashStep h < 2 ^ 64 := by
  induction xs generalizing h with
  | nil => exact ⟨rfl, hh⟩
  | cons x xs ih =>
    simp only [List.foldl_cons]
    rw [← hashStep_eq h x hh]
    exact ih (hashStep h x) (hashStep_lt h x)

theorem rotateLeft_testBit (h i : Nat) (hh : h < 2 ^ 64) (hi : i < 64) :
    (rotateLeft 64 8 h).testBit i = h.testBit ((i + 56) % 64) := by
  have hb : h / 2 ^ 56 < 2 ^ 8 := by
    apply Nat.div_lt_of_lt_mul
    calc h < 2 ^ 64 := hh
      _ = 2 ^ 56 * 2 ^ 8 := by norm_num
  unfold rotateLeft
  rw [Nat.mod_eq_of_lt hh, show 64 - 8 = 56 from rfl, Nat.testBit_mul_pow_two_add _ hb]
  by_cases h8 : i < 8
  · rw [if_pos h8, ← Nat.shiftRight_eq_div_pow, Nat.testBit_shiftRight]
    congr 1
    omega
  · rw [if_neg h8, Nat.testBit_mod_two_pow]
    have h1 : i - 8 < 56 := by omega
    have h2 : (i + 56) % 64 = i - 8 := by omega
    simp [h1, h2]

theorem rotateLeft_lt (h : Nat) : rotateLeft 64 8 h < 2 ^ 64 := by
  unfold rotateLeft
  have h1 : h % 2 ^ (64 - 8) < 2 ^ 56 := Nat.mod_lt _ (by norm_num)
  have h2 : h % 2 ^ 64 / 2 ^ (64 - 8) < 2 ^ 8 := by
    apply Nat.div_lt_of_lt_mul
    calc h % 2 ^ 64 < 2 ^ 64 := Nat.mod_lt _ (by norm_num)
      _ = 2 ^ (64 - 8) * 2 ^ 8 := by norm_num
  norm_num at h1 h2 ⊢
  omega

/-- C8: the bucket value `Lookup` computes for `(stk, tag)` is the rotate-and-accumulate fold
over `stk` followed by `tag`, from `h = 0` with `h := (rotateLeft(h, 8) + x * 41) mod 2 ^ 64`,
the tag being folded by the same step as an address; and on a 64-bit word the source expression
`h<<8 | h>>(8*(sizeof(h)-1))` is the rotation by 8: it stays below `2 ^ 64` and its bit `i` is
bit `(i - 8) mod 64` of `h`. -/
theorem hash_is_rotate_accumulate (stk : List Nat) (tag : Nat) :
    hashOf stk tag = rotateAccumulate (stk ++ [tag]) ∧
    hashOf stk tag = hashStep (stk.foldl hashStep 0) tag ∧
    (∀ h, h < 2 ^ 64 →
      ((h <<< 8) % wordMod) ||| (h >>> (8 * (sizeofUintptr - 1))) = rotateLeft 64 8 h) ∧
    (∀ h, rotateLeft 64 8 h < 2 ^ 64) ∧
    (∀ h i, h < 2 ^ 64 → i < 64 →
      (rotateLeft 64 8 h).testBit i = h.testBit ((i + 56) % 64)) := by
  refine ⟨?_, rfl, rot_expr_eq, rotateLeft_lt, rotateLeft_testBit⟩
  obtain ⟨h1, h2⟩ := foldl_hashStep_eq stk 0 (by norm_num)
  unfold hashOf rotateAccumulate
  rw [List.foldl_append, List.foldl_cons, List.foldl_nil, hashStep_eq _ tag h2, h1]

/-- Instance of C8: the hash of `([1, 2], 5)`, and the rotation of a word with its top byte
set. -/
theorem hash_is_rotate_accumulate_witness :
    hashOf [1, 2] 5 = 2708173 ∧ rotateAccumulate [1, 2, 5] = 2708173 ∧
    rotateLeft 64 8 0xAB00000000000001 = 0x1AB :=
  ⟨by decide, ((hash_is_rotate_accumulate [1, 2] 5).1.symm.trans (by decide)), by decide⟩

/-! ## Bucket chains -/

theorem bucket_facts {s : State} (hinv : Inv s) {h : Nat} {l : List Nat}
    (hl : IsChain (fun i => (s.ents i).nextHash) (hashGet s.m.hash h) l) :
    l.Nodup ∧ (∀ e, e ∈ l ↔ (e < s.m.free.off ∧ hashOf (keyOf s e).1 (keyOf s e).2 = h)) ∧
      l.length ≤ s.entTop := by
  obtain ⟨l', hl1, hl2, hl3⟩ := hinv.bucket h
  have hll : l = l' := IsSeg.unique hl hl1
  subst hll
  refine ⟨hl2, hl3, ?_⟩
  have h1 := length_le_of_nodup_lt hl2 (fun e he => ((hl3 e).mp he).1)
  have h2 := hinv.free_top
  omega

theorem bucketChain_eq {s : State} (hinv : Inv s) {h : Nat} {l : List Nat}
    (hl : IsChain (fun i => (s.ents i).nextHash) (hashGet s.m.hash h) l) :
    bucketChain s h = some l :=
  walk_of_isChain hl (bucket_facts hinv hl).2.2

theorem bucketChain_isChain {s : State} (hinv : Inv s) {h : Nat} {l : List Nat}
    (hl : bucketChain s h = some l) :
    IsChain (fun i => (s.ents i).nextHash) (hashGet s.m.hash h) l := by
  obtain ⟨l', hl1, -, -⟩ := hinv.bucket h
  rw [bucketChain_eq hinv hl1] at hl
  rw [← Option.some.inj hl]
  exact hl1

theorem mem_allChain {s : State} (hinv : Inv s) {G : List Nat} (hG : allChain s = some G)
    (e : Nat) : e ∈ G ↔ e < s.m.free.off := by
  rw [allChain_eq hinv] at hG
  rw [← Option.some.inj hG, List.mem_range]

theorem entry_eq_of_frame {a b : profMapEntry}
    (h1 : { a with nextHash := none } = { b with nextHash := none })
    (h2 : a.nextHash = b.nextHash) : a = b := by
  cases a
  cases b
  simp only [profMapEntry.mk.injEq, true_and] at h1
  simp only at h2
  simp [h1, h2]

/-- The state a hit leaves: the state itself when the entry heads its bucket chain, the
move-to-front state otherwise. -/
theorem Lookup_hit_state (s : State) (stk : List Nat) (tag e : Nat) (hinv : Inv s)
    (he : e < s.m.free.off) (hk : keyOf s e = (stk, tag)) :
    ∃ l1 l2,
      IsChain (fun i => (s.ents i).nextHash) (hashGet s.m.hash (hashOf stk tag))
        (l1 ++ e :: l2) ∧
      ((l1 = [] ∧ Lookup s stk tag = .ok (s, e)) ∨
       (∃ l1' x, l1 = l1' ++ [x] ∧ x ≠ e ∧
          Lookup s stk tag = .ok (mtfState s (hashOf stk tag) x e, e))) := by
  obtain ⟨l, hl1, hl2, hl3⟩ := hinv.bucket (hashOf stk tag)
  have hel : e ∈ l := (hl3 e).mpr ⟨he, by rw [hk]⟩
  obtain ⟨l1, l2, hsplit⟩ := List.append_of_mem hel
  subst hsplit
  have hlt : ∀ i ∈ l1 ++ e :: l2, i < s.m.free.off := fun i hi => ((hl3 i).mp hi).1
  have hlen := length_le_of_nodup_lt hl2 hlt
  have hfuel : l1.length < s.entTop := by
    have := hinv.free_top
    simp only [List.length_append, List.length_cons] at hlen
    omega
  have hne : ∀ i ∈ l1, keyOf s i ≠ (stk, tag) := by
    intro i hi hki
    have hie : i = e :=
      hinv.key_inj i e (hlt i (List.mem_append_left _ hi)) he (hki.trans hk.symm)
    subst hie
    have := (List.nodup_append.mp hl2).2.2
    exact this hi (List.mem_cons_self _ _)
  have hsearch := search_hit s stk tag s.entTop none hl1 hfuel hne hk
  refine ⟨l1, l2, hl1, ?_⟩
  rcases List.eq_nil_or_concat l1 with hnil | ⟨l1', x, hcat⟩
  · subst hnil
    left
    refine ⟨rfl, ?_⟩
    unfold Lookup
    simp only [hsearch]
    rfl
  · rw [List.concat_eq_append] at hcat
    subst hcat
    right
    have hlast : lastOf none (l1' ++ [x]) = some x := by
      simp [lastOf]
    rw [hlast] at hsearch
    have hhash : s.m.hash ≠ none := by
      intro hn
      have : hashGet s.m.hash (hashOf stk tag) = none := by rw [hn]; rfl
      rw [this] at hl1
      cases l1' with
      | nil => exact absurd hl1.1 (by simp)
      | cons a l => exact absurd hl1.1 (by simp)
    have hxe : x ≠ e := by
      intro hxe
      have hnd : (l1' ++ x :: e :: l2).Nodup := by simpa using hl2
      have : (x :: e :: l2).Nodup := (List.nodup_append.mp hnd).2.1
      rw [hxe] at this
      simp at this
    refine ⟨l1', x, rfl, hxe, ?_⟩
    unfold Lookup
    simp only [hsearch]
    exact moveToFront_some s _ x e hhash

/-- Outside the searched bucket chain a hit changes no entry record, and it changes no other
slot of the bucket table. -/
theorem Lookup_hit_outside (s : State) (stk : List Nat) (tag e : Nat) (hinv : Inv s)
    (he : e < s.m.free.off) (hk : keyOf s e = (stk, tag)) (s' : State) (r : Nat)
    (hL : Lookup s stk tag = .ok (s', r)) (L : List Nat)
    (hLc : IsChain (fun i => (s.ents i).nextHash) (hashGet s.m.hash (hashOf stk tag)) L) :
    (∀ i, i ∉ L → s'.ents i = s.ents i) ∧
    (∀ h', h' ≠ hashOf stk tag → hashGet s'.m.hash h' = hashGet s.m.hash h') := by
  obtain ⟨l1, l2, hc, hcase⟩ := Lookup_hit_state s stk tag e hinv he hk
  have hLL : L = l1 ++ e :: l2 := IsSeg.unique hLc hc
  subst hLL
  rcases hcase with ⟨-, h1⟩ | ⟨l1', x, hl1, hxe, h1⟩
  · rw [h1] at hL
    simp only [Except.ok.injEq, Prod.mk.injEq] at hL
    obtain ⟨rfl, -⟩ := hL
    exact ⟨fun _ _ => rfl, fun _ _ => rfl⟩
  · rw [h1] at hL
    simp only [Except.ok.injEq, Prod.mk.injEq] at hL
    obtain ⟨rfl, -⟩ := hL
    subst hl1
    constructor
    · intro i hi
      have hie : i ≠ e := fun h => hi (by simp [h])
      have hix : i ≠ x := fun h => hi (by simp [h])
      apply entry_eq_of_frame ((mtfState_frame s _ x e).ents i)
      rw [mtfState_next s _ x e hxe i, if_neg hie, if_neg hix]
    · intro h' hh
      show (if h' = hashOf stk tag then some e else hashGet s.m.hash h') = _
      rw [if_neg hh]

/-! ## The claims about hits and misses -/

/-- C11: in every reachable map, for a key `(S, T)` whose entry `e` is on the global chain,
the bucket chain `L` under `hash(S, T)` ends at nil and holds `e`; `Lookup(S, T)` returns `e`
and leaves the chain `e` followed by `L` with `e` removed, the others in their order.  The new chain
is a permutation of `L` of the same length, and it is `L` itself when `e` was the head. -/
theorem lookup_hit_moves_to_front (s : State) (hr : Reachable s) (G : List Nat)
    (hG : allChain s = some G) (e : Nat) (he : e ∈ G) (S : List Nat) (T : Nat)
    (hk : keyOf s e = (S, T)) :
    ∃ L s', bucketChain s (hashOf S T) = some L ∧ e ∈ L ∧
      Lookup s S T = .ok (s', e) ∧
      bucketChain s' (hashOf S T) = some (e :: L.erase e) ∧
      (L.erase e).Sublist L ∧ (e :: L.erase e).Perm L ∧
      (e :: L.erase e).length = L.length ∧
      (L.head? = some e → bucketChain s' (hashOf S T) = some L) := by
  have hinv := Inv_of_reachable hr
  have hlt : e < s.m.free.off := (mem_allChain hinv hG e).mp he
  obtain ⟨s', hL, hinv', -, ⟨l1, l2, hc, hc'⟩, -⟩ := Lookup_hit s S T e hinv hlt hk
  have hnd := (bucket_facts hinv hc).1
  have he1 : e ∉ l1 := fun hm => (List.nodup_append.mp hnd).2.2 hm (List.mem_cons_self _ _)
  have herase : (l1 ++ e :: l2).erase e = l1 ++ l2 := by
    rw [List.erase_append_right _ he1, List.erase_cons_head]
  have hmem : e ∈ l1 ++ e :: l2 := by simp
  have hperm : (e :: (l1 ++ e :: l2).erase e).Perm (l1 ++ e :: l2) :=
    (List.perm_cons_erase hmem).symm
  refine ⟨l1 ++ e :: l2, s', bucketChain_eq hinv hc, hmem, hL, ?_,
    List.erase_sublist _ _, hperm, hperm.length_eq, ?_⟩
  · rw [herase]
    exact bucketChain_eq hinv' hc'
  · intro hhead
    have hb := bucketChain_eq hinv' hc'
    cases l1 with
    | nil => simpa using hb
    | cons a l =>
      simp only [List.cons_append, List.head?_cons, Option.some.injEq] at hhead
      exact absurd (hhead ▸ List.mem_cons_self a l) he1

/-- The map after `Lookup([0, 1], 0)` and `Lookup([1], 0)` on the zero-value map: two
entries whose keys have the same hash. -/
theorem two_colliding_entries :
    ∃ s, lookups State.empty [([0, 1], 0), ([1], 0)] = .ok s ∧ Reachable s ∧
      allChain s = some [0, 1] ∧ keyOf s 0 = ([0, 1], 0) ∧ keyOf s 1 = ([1], 0) ∧
      bucketChain s (hashOf [0, 1] 0) = some [1, 0] := by
  have hL1 : Lookup State.empty [0, 1] 0 =
      .ok (addState State.empty (hashOf [0, 1] 0) [0, 1] 0, 0) :=
    Lookup_miss State.empty [0, 1] 0 Inv_empty (by decide)
      (fun i hi => absurd hi (Nat.not_lt_zero i))
  have hr1 := Reachable.step Reachable.empty hL1
  have hL2 : Lookup (addState State.empty (hashOf [0, 1] 0) [0, 1] 0) [1] 0 =
      .ok (addState (addState State.empty (hashOf [0, 1] 0) [0, 1] 0) (hashOf [1] 0) [1] 0,
        1) := by
    refine Lookup_miss _ [1] 0 (Inv_of_reachable hr1) (by decide) ?_
    intro i hi
    have hi0 : i = 0 := by
      have : (addState State.empty (hashOf [0, 1] 0) [0, 1] 0).m.free.off = 1 := by decide
      omega
    subst hi0
    decide
  refine ⟨_, ?_, Reachable.step hr1 hL2, by decide, by decide, by decide, by decide⟩
  simp only [lookups, hL1, hL2]

/-- Witness for C11: with the chain `[1, 0]` under the common hash of `([0, 1], 0)` and
`([1], 0)`, looking up `([0, 1], 0)` returns entry `0` and leaves the chain `[0, 1]`. -/
theorem lookup_hit_moves_to_front_witness :
    ∃ s s', lookups State.empty [([0, 1], 0), ([1], 0)] = .ok s ∧
      bucketChain s (hashOf [0, 1] 0) = some [1, 0] ∧
      Lookup s [0, 1] 0 = .ok (s', 0) ∧ bucketChain s' (hashOf [0, 1] 0) = some [0, 1] := by
  obtain ⟨s, h1, hr, hG, hk0, -, hb⟩ := two_colliding_entries
  obtain ⟨L, s', hL1, -, hL3, hL4, -⟩ :=
    lookup_hit_moves_to_front s hr [0, 1] hG 0 (by decide) [0, 1] 0 hk0
  rw [hb] at hL1
  have hLL : L = [1, 0] := (Option.some.inj hL1).symm
  subst hLL
  exact ⟨s, s', h1, hb, hL3, hL4⟩

theorem addState_chain_other (s : State) (h : Nat) (stk : List Nat) (tag : Nat) (hinv : Inv s)
    (h' : Nat) (hne : h' ≠ h) (l : List Nat)
    (hl : IsChain (fun i => (s.ents i).nextHash) (hashGet s.m.hash h') l) :
    IsChain (fun i => ((addState s h stk tag).ents i).nextHash)
      (hashGet (addState s h stk tag).m.hash h') l := by
  have hget : hashGet (addState s h stk tag).m.hash h' = hashGet s.m.hash h' := by
    show (if h' = h then some s.m.free.off else hashGet s.m.hash h') = _
    rw [if_neg hne]
  rw [hget]
  apply IsSeg.congr hl
  intro e he
  have := (((bucket_facts hinv hl).2.1 e).mp he).1
  exact (addState_ents_frame s h stk tag e (by omega)).1

theorem addState_chain_same (s : State) (h : Nat) (stk : List Nat) (tag : Nat) (hinv : Inv s)
    (l : List Nat) (hl : IsChain (fun i => (s.ents i).nextHash) (hashGet s.m.hash h) l) :
    IsChain (fun i => ((addState s h stk tag).ents i).nextHash)
      (hashGet (addState s h stk tag).m.hash h) (s.m.free.off :: l) := by
  have hget : hashGet (addState s h stk tag).m.hash h = some s.m.free.off := by
    show (if h = h then some s.m.free.off else hashGet s.m.hash h) = _
    rw [if_pos rfl]
  refine ⟨hget, ?_⟩
  show IsSeg _ ((addState s h stk tag).ents s.m.free.off).nextHash l none
  rw [addState_ents_new]
  apply IsSeg.congr hl
  intro e he
  have := (((bucket_facts hinv hl).2.1 e).mp he).1
  exact (addState_ents_frame s h stk tag e (by omega)).1

/-- C12: in every reachable map with global chain `G`, for a key `(S, T)` carried by no entry
of `G` and `|S| ≤ 1024`, with `L` the bucket chain under `h = hash(S, T)`: `Lookup(S, T)`
returns a new entry `e` carrying the key; afterwards the hash table is non-nil, the bucket
chain under `h` is `e` followed by `L`, the global chain is `G` followed by `e`, `m.last` is
`e`, and the chain of every other bucket is as before. -/
theorem lookup_miss_links_new_entry (s : State) (hr : Reachable s) (G : List Nat)
    (hG : allChain s = some G) (S : List Nat) (T : Nat) (hS : S.length ≤ 1024)
    (hmiss : ∀ e ∈ G, keyOf s e ≠ (S, T)) :
    ∃ L s' e, bucketChain s (hashOf S T) = some L ∧ Lookup s S T = .ok (s', e) ∧
      e ∉ G ∧ keyOf s' e = (S, T) ∧
      s'.m.hash.isSome = true ∧ bucketChain s' (hashOf S T) = some (e :: L) ∧
      allChain s' = some (G ++ [e]) ∧ s'.m.last = some e ∧
      ∀ h', h' ≠ hashOf S T → bucketChain s' h' = bucketChain s h' := by
  have hinv := Inv_of_reachable hr
  have hk : ∀ i, i < s.m.free.off → keyOf s i ≠ (S, T) :=
    fun i hi => hmiss i ((mem_allChain hinv hG i).mpr hi)
  have hL := Lookup_miss s S T hinv hS hk
  have hinv' := Inv_addState s S T hinv hS hk
  obtain ⟨L, hL1, -, -⟩ := hinv.bucket (hashOf S T)
  have hGe : G = List.range s.m.free.off := by
    rw [allChain_eq hinv] at hG
    exact (Option.some.inj hG).symm
  refine ⟨L, _, _, bucketChain_eq hinv hL1, hL, ?_, addState_keyOf_new s _ S T, rfl,
    bucketChain_eq hinv' (addState_chain_same s _ S T hinv L hL1), ?_, rfl, ?_⟩
  · rw [mem_allChain hinv hG]
    exact Nat.lt_irrefl _
  · rw [allChain_eq hinv', addState_free_off, List.range_succ, hGe]
  · intro h' hh
    obtain ⟨l, hl1, -, -⟩ := hinv.bucket h'
    rw [bucketChain_eq hinv hl1,
      bucketChain_eq hinv' (addState_chain_other s _ S T hinv h' hh l hl1)]

/-- Witness for C12 on the zero-value map, whose hash table is nil. -/
theorem lookup_miss_links_new_entry_witness :
    State.empty.m.hash.isSome = false ∧
    ∃ L s' e, bucketChain State.empty (hashOf [1, 2, 3] 0) = some L ∧
      Lookup State.empty [1, 2, 3] 0 = .ok (s', e) ∧
      e ∉ ([] : List Nat) ∧ keyOf s' e = ([1, 2, 3], 0) ∧
      s'.m.hash.isSome = true ∧ bucketChain s' (hashOf [1, 2, 3] 0) = some (e :: L) ∧
      allChain s' = some ([] ++ [e]) ∧ s'.m.last = some e ∧
      ∀ h', h' ≠ hashOf [1, 2, 3] 0 → bucketChain s' h' = bucketChain State.empty h' :=
  ⟨rfl, lookup_miss_links_new_entry State.empty Reachable.empty [] rfl [1, 2, 3] 0 (by decide)
    (fun e he => absurd he (List.not_mem_nil e))⟩

/-- C13: in every reachable map, a `Lookup(S, T)` whose key is carried by an entry `e` of the
global chain returns `e` and allocates and appends nothing: `m.all`, `m.last`, every
`nextAll` link, `m.free`, `m.freeStk`, both heaps' frontiers and the address heap are as
before, every other slot of the bucket table and every other bucket chain is as before, and
an entry record changes at most in its `nextHash` link and only if it lies on the bucket
chain `L` under `hash(S, T)`. -/
theorem lookup_hit_allocates_nothing (s : State) (hr : Reachable s) (G : List Nat)
    (hG : allChain s = some G) (e : Nat) (he : e ∈ G) (S : List Nat) (T : Nat)
    (hk : keyOf s e = (S, T)) :
    ∃ L s', bucketChain s (hashOf S T) = some L ∧ Lookup s S T = .ok (s', e) ∧
      s'.m.all = s.m.all ∧ s'.m.last = s.m.last ∧
      (∀ i, (s'.ents i).nextAll = (s.ents i).nextAll) ∧ allChain s' = allChain s ∧
      s'.m.free = s.m.free ∧ s'.m.freeStk = s.m.freeStk ∧
      s'.entTop = s.entTop ∧ s'.stkTop = s.stkTop ∧ s'.stks = s.stks ∧
      (∀ h', h' ≠ hashOf S T →
        hashGet s'.m.hash h' = hashGet s.m.hash h' ∧ bucketChain s' h' = bucketChain s h') ∧
      (∀ i, i ∉ L → s'.ents i = s.ents i) ∧
      (∀ i, { s'.ents i with nextHash := none } = { s.ents i with nextHash := none }) := by
  have hinv := Inv_of_reachable hr
  have hlt : e < s.m.free.off := (mem_allChain hinv hG e).mp he
  obtain ⟨s', hL, hinv', hf, ⟨l1, l2, hc, -⟩, hother⟩ := Lookup_hit s S T e hinv hlt hk
  obtain ⟨hout1, hout2⟩ := Lookup_hit_outside s S T e hinv hlt hk s' e hL _ hc
  refine ⟨l1 ++ e :: l2, s', bucketChain_eq hinv hc, hL, hf.all, hf.last,
    fun i => (hf.fields i).1, ?_, hf.free, hf.freeStk, hf.entTop, hf.stkTop, hf.stks, ?_,
    hout1, hf.ents⟩
  · rw [allChain_eq hinv', allChain_eq hinv, hf.free]
  · intro h' hh
    refine ⟨hout2 h' hh, ?_⟩
    obtain ⟨l, hl1, -, -⟩ := hinv.bucket h'
    rw [bucketChain_eq hinv hl1, bucketChain_eq hinv' (hother h' hh l hl1)]

/-- Witness for C13 on the map with the two colliding keys `([0, 1], 0)` and `([1], 0)`:
the hit on `([0, 1], 0)` moves entry `0` to the front and allocates nothing. -/
theorem lookup_hit_allocates_nothing_witness :
    ∃ s s', lookups State.empty [([0, 1], 0), ([1], 0)] = .ok s ∧
      Lookup s [0, 1] 0 = .ok (s', 0) ∧ allChain s' = allChain s ∧
      s'.m.free = s.m.free ∧ s'.m.freeStk = s.m.freeStk ∧
      s'.entTop = s.entTop ∧ s'.stkTop = s.stkTop := by
  obtain ⟨s, h1, hr, hG, hk0, -, -⟩ := two_colliding_entries
  obtain ⟨L, s', -, hL, -, -, -, h4, h5, h6, h7, h8, -⟩ :=
    lookup_hit_allocates_nothing s hr [0, 1] hG 0 (by decide) [0, 1] 0 hk0
  exact ⟨s, s', h1, hL, h4, h5, h6, h7, h8⟩

/-! ## The two pools -/

theorem free_len_eq {s : State} (hr : Reachable s) :
    s.m.free.len = (128 - s.m.free.off % 128) % 128 := by
  induction hr with
  | empty => decide
  | step hr' hL ih =>
    have hp := Lookup_post (Inv_of_reachable hr') hL
    rcases hp.cases with ⟨-, -, hf⟩ | ⟨-, -, hs⟩
    · rw [hf.free]
      exact ih
    · rw [hs, addState_free_off, addState_free_len]
      split <;> omega

/-- C14: in every reachable map with global chain `G` (one node per entry created, so `|G|`
misses so far) the free entry pool holds `(128 - (|G| mod 128)) mod 128` records and
`128 * ceil(|G| / 128)` records have been allocated in all; no record is on the chain twice
and none on the chain is in the pool.  A `Lookup` either returns an entry of `G` and leaves
chain, pool and allocation as they are, or returns a record that was not on the chain, appends
it, and allocates a chunk of 128 exactly when `|G| mod 128 = 0`, that is on the misses numbered
1, 129, 257, and so on. -/
theorem entry_pool_grows_by_128 (s : State) (hr : Reachable s) (G : List Nat)
    (hG : allChain s = some G) :
    s.m.free.len = (128 - G.length % 128) % 128 ∧
    s.entTop = 128 * ((G.length + 127) / 128) ∧
    G.Nodup ∧ (∀ e ∈ G, ¬ (s.m.free.off ≤ e ∧ e < s.m.free.off + s.m.free.len)) ∧
    ∀ S T,
      (S.length ≤ 1024 → ∃ s' e, Lookup s S T = .ok (s', e)) ∧
      ∀ s' e, Lookup s S T = .ok (s', e) →
        (e ∈ G ∧ allChain s' = some G ∧ s'.entTop = s.entTop ∧ s'.m.free = s.m.free) ∨
        (e ∉ G ∧ allChain s' = some (G ++ [e]) ∧
          s'.entTop = (if G.length % 128 = 0 then s.entTop + 128 else s.entTop) ∧
          s'.m.free.len = (if G.length % 128 = 0 then 127 else s.m.free.len - 1) ∧
          s'.m.free.off = e + 1) := by
  have hinv := Inv_of_reachable hr
  have hGe : G = List.range s.m.free.off := by
    rw [allChain_eq hinv] at hG
    exact (Option.some.inj hG).symm
  have hlen : G.length = s.m.free.off := by rw [hGe, List.length_range]
  have hfl := free_len_eq hr
  have htop := hinv.free_top
  refine ⟨by rw [hlen]; exact hfl, by rw [hlen]; omega, by rw [hGe]; exact List.nodup_range _,
    ?_, fun S T => ⟨fun hS => Lookup_ok s S T hinv hS, ?_⟩⟩
  · intro e he
    rw [mem_allChain hinv hG] at he
    omega
  · intro s' e hL
    have hp := Lookup_post hinv hL
    rcases hp.cases with ⟨he, -, hf⟩ | ⟨he, -, hs⟩
    · left
      refine ⟨(mem_allChain hinv hG e).mpr he, ?_, hf.entTop, hf.free⟩
      rw [allChain_eq hp.inv, hf.free, hGe]
    · right
      have hoff : s'.m.free.off = s.m.free.off + 1 := by
        rw [hs]; exact addState_free_off s _ S T
      refine ⟨?_, ?_, ?_, ?_, by rw [hoff, he]⟩
      · rw [mem_allChain hinv hG, he]
        exact Nat.lt_irrefl _
      · rw [allChain_eq hp.inv, hoff, List.range_succ, hGe, he]
      · have h1 : s'.entTop = if s.m.free.len < 1 then s.entTop + 128 else s.entTop := by
          rw [hs]; rfl
        rw [h1, hlen]
        by_cases h0 : s.m.free.off % 128 = 0
        · rw [if_pos h0, if_pos (by omega)]
        · rw [if_neg h0, if_neg (by omega)]
      · have h1 : s'.m.free.len = if s.m.free.len < 1 then 127 else s.m.free.len - 1 := by
          rw [hs]; exact addState_free_len s _ S T
        rw [h1, hlen]
        by_cases h0 : s.m.free.off % 128 = 0
        · rw [if_pos h0, if_pos (by omega)]
        · rw [if_neg h0, if_neg (by omega)]

/-- Witness for C14 on the zero-value map: no entry, an empty pool, nothing allocated, and
the first miss allocates a chunk. -/
theorem entry_pool_grows_by_128_witness :
    State.empty.m.free.len = (128 - ([] : List Nat).length % 128) % 128 ∧
    ∀ s' e, Lookup State.empty [1, 2, 3] 0 = .ok (s', e) →
      (e ∈ ([] : List Nat) ∧ allChain s' = some [] ∧ s'.entTop = State.empty.entTop ∧
        s'.m.free = State.empty.m.free) ∨
      (e ∉ ([] : List Nat) ∧ allChain s' = some ([] ++ [e]) ∧
        s'.entTop = (if ([] : List Nat).length % 128 = 0 then State.empty.entTop + 128
          else State.empty.entTop) ∧
        s'.m.free.len = (if ([] : List Nat).length % 128 = 0 then 127
          else State.empty.m.free.len - 1) ∧
        s'.m.free.off = e + 1) :=
  ⟨(entry_pool_grows_by_128 State.empty Reachable.empty [] rfl).1,
    ((entry_pool_grows_by_128 State.empty Reachable.empty [] rfl).2.2.2.2 [1, 2, 3] 0).2⟩

/-- C15: in every reachable map `m.freeStk` has at most 1024 slots, and on a miss for a stack
of `n ≤ 1024` addresses with `r = len(m.freeStk)`: the new entry's stack has length `n` and
capacity `n`; when `n ≤ r` it is cut from the front of `m.freeStk`, nothing is allocated and
`r - n` slots remain; when `n > r` a chunk of 1024 slots is allocated, the stack is cut from
its front, `1024 - n` slots remain and the old remainder is referenced by nothing. -/
theorem slot_pool_grows_by_1024 (s : State) (hr : Reachable s) :
    s.m.freeStk.len ≤ 1024 ∧
    ∀ G S T, allChain s = some G → S.length ≤ 1024 → (∀ e ∈ G, keyOf s e ≠ (S, T)) →
      ∃ s' e, Lookup s S T = .ok (s', e) ∧
        (s'.ents e).stk.len = S.length ∧ (s'.ents e).stk.cap = S.length ∧
        s'.m.freeStk.len =
          (if S.length ≤ s.m.freeStk.len then s.m.freeStk.len - S.length
            else 1024 - S.length) ∧
        s'.stkTop = (if S.length ≤ s.m.freeStk.len then s.stkTop else s.stkTop + 1024) ∧
        (s'.ents e).stk.off =
          (if S.length ≤ s.m.freeStk.len then s.m.freeStk.off else s.stkTop) ∧
        s'.m.freeStk.off = (s'.ents e).stk.off + S.length ∧
        s'.m.freeStk.len ≤ 1024 := by
  have hinv := Inv_of_reachable hr
  refine ⟨hinv.stk_len, ?_⟩
  intro G S T hG hS hmiss
  have hk : ∀ i, i < s.m.free.off → keyOf s i ≠ (S, T) :=
    fun i hi => hmiss i ((mem_allChain hinv hG i).mpr hi)
  have hL := Lookup_miss s S T hinv hS hk
  have hinv' := Inv_addState s S T hinv hS hk
  have hnew := addState_ents_new s (hashOf S T) S T
  refine ⟨_, _, hL, by rw [hnew], by rw [hnew], ?_, ?_, ?_, ?_, hinv'.stk_len⟩
  · rw [addState_freeStk_len]
    by_cases h : S.length ≤ s.m.freeStk.len
    · rw [if_pos h, if_neg (by omega)]
    · rw [if_neg h, if_pos (by omega)]
  · show (if s.m.freeStk.len < S.length then s.stkTop + 1024 else s.stkTop) = _
    by_cases h : S.length ≤ s.m.freeStk.len
    · rw [if_pos h, if_neg (by omega)]
    · rw [if_neg h, if_pos (by omega)]
  · rw [hnew]
    show newStkOff s S.length = _
    unfold newStkOff
    by_cases h : S.length ≤ s.m.freeStk.len
    · rw [if_pos h, if_neg (by omega)]
    · rw [if_neg h, if_pos (by omega)]
  · rw [addState_freeStk_off, hnew]

/-- Witness for C15 on the zero-value map: the first miss, for `[1, 2, 3]`, allocates a
chunk and leaves `1021` slots. -/
theorem slot_pool_grows_by_1024_witness :
    State.empty.m.freeStk.len ≤ 1024 ∧
    ∃ s' e, Lookup State.empty [1, 2, 3] 0 = .ok (s', e) ∧
      (s'.ents e).stk.len = 3 ∧ (s'.ents e).stk.cap = 3 ∧ s'.m.freeStk.len = 1021 ∧
      s'.stkTop = 1024 := by
  obtain ⟨h0, h⟩ := slot_pool_grows_by_1024 State.empty Reachable.empty
  obtain ⟨s', e, h1, h2, h3, h4, h5, -⟩ :=
    h [] [1, 2, 3] 0 rfl (by decide) (fun e he => absurd he (List.not_mem_nil e))
  exact ⟨h0, s', e, h1, h2, h3, h4, h5⟩

/-! ## Well-formedness of the two indexes -/

/-- C16: in every reachable map with global chain `G`: the chain of every bucket `h` ends at
nil, visits no node twice, and holds only entries of `G` whose `(stk, tag)` hashes to `h`;
every entry of `G` occurs exactly once in the chain of the bucket of its own hash and in the
chain of no other bucket; and `Lookup` on the key of an entry of `G` returns that entry. -/
theorem bucket_index_well_formed (s : State) (hr : Reachable s) :
    ∃ G, allChain s = some G ∧
      (∀ h, ∃ L, bucketChain s h = some L ∧ L.Nodup ∧
        ∀ e ∈ L, e ∈ G ∧ hashOf (entryStk s e) (s.ents e).tag = h) ∧
      (∀ e ∈ G, ∃ L, bucketChain s (hashOf (entryStk s e) (s.ents e).tag) = some L ∧
        L.count e = 1 ∧
        ∀ h' L', bucketChain s h' = some L' → e ∈ L' →
          h' = hashOf (entryStk s e) (s.ents e).tag) ∧
      (∀ e ∈ G, ∃ s', Lookup s (entryStk s e) (s.ents e).tag = .ok (s', e)) := by
  have hinv := Inv_of_reachable hr
  have hG := allChain_eq hinv
  refine ⟨_, hG, ?_, ?_, ?_⟩
  · intro h
    obtain ⟨L, hL1, hL2, hL3⟩ := hinv.bucket h
    refine ⟨L, bucketChain_eq hinv hL1, hL2, fun e he => ?_⟩
    have := (hL3 e).mp he
    exact ⟨List.mem_range.mpr this.1, this.2⟩
  · intro e he
    rw [List.mem_range] at he
    obtain ⟨L, hL1, hL2, hL3⟩ := hinv.bucket (hashOf (entryStk s e) (s.ents e).tag)
    have hmem : e ∈ L := (hL3 e).mpr ⟨he, rfl⟩
    refine ⟨L, bucketChain_eq hinv hL1, List.count_eq_one_of_mem hL2 hmem, ?_⟩
    intro h' L' hL' heL'
    have hc := bucketChain_isChain hinv hL'
    exact ((((bucket_facts hinv hc).2.1 e).mp heL').2).symm
  · intro e he
    rw [List.mem_range] at he
    obtain ⟨s', hL, -⟩ := Lookup_hit s (entryStk s e) (s.ents e).tag e hinv he rfl
    exact ⟨s', hL⟩

/-- Witness for C16 on the map with the colliding keys `([0, 1], 0)` and `([1], 0)`: both
entries sit in the one bucket of their common hash. -/
theorem bucket_index_well_formed_witness :
    ∃ s, lookups State.empty [([0, 1], 0), ([1], 0)] = .ok s ∧
      bucketChain s (hashOf [0, 1] 0) = some [1, 0] ∧
      ∃ G, allChain s = some G ∧
        (∀ h, ∃ L, bucketChain s h = some L ∧ L.Nodup ∧
          ∀ e ∈ L, e ∈ G ∧ hashOf (entryStk s e) (s.ents e).tag = h) ∧
        (∀ e ∈ G, ∃ L, bucketChain s (hashOf (entryStk s e) (s.ents e).tag) = some L ∧
          L.count e = 1 ∧
          ∀ h' L', bucketChain s h' = some L' → e ∈ L' →
            h' = hashOf (entryStk s e) (s.ents e).tag) ∧
        (∀ e ∈ G, ∃ s', Lookup s (entryStk s e) (s.ents e).tag = .ok (s', e)) := by
  obtain ⟨s, h1, hr, -, -, -, hb⟩ := two_colliding_entries
  exact ⟨s, h1, hb, bucket_index_well_formed s hr⟩

/-- C17: in every reachable map the walk from `m.all` along `nextAll` ends at nil and visits
no node twice; `m.all` is nil exactly when `m.last` is nil; `m.all` is the first node of the
walk and `m.last` its final node; and `m.last.nextAll` is nil. -/
theorem all_chain_head_and_tail (s : State) (hr : Reachable s) :
    ∃ G, allChain s = some G ∧ G.Nodup ∧
      (s.m.all = none ↔ s.m.last = none) ∧
      s.m.all = G.head? ∧ s.m.last = G.getLast? ∧
      ∀ l, s.m.last = some l → (s.ents l).nextAll = none := by
  have hinv := Inv_of_reachable hr
  refine ⟨_, allChain_eq hinv, List.nodup_range _, ?_, ?_, ?_, ?_⟩
  · rw [hinv.all_eq, hinv.last_eq]
    by_cases h0 : s.m.free.off = 0 <;> simp [h0]
  · rw [hinv.all_eq, List.head?_range]
  · rw [hinv.last_eq, List.getLast?_range]
  · intro l hl
    rw [hinv.last_eq] at hl
    by_cases h0 : s.m.free.off = 0
    · rw [if_pos h0] at hl
      cases hl
    · rw [if_neg h0] at hl
      have hle : l = s.m.free.off - 1 := (Option.some.inj hl).symm
      rw [hinv.nextAll_eq l (by omega), if_neg (by omega)]

/-- Witness for C17 on the map with two entries: head `0`, tail `1`. -/
theorem all_chain_head_and_tail_witness :
    ∃ s, lookups State.empty [([0, 1], 0), ([1], 0)] = .ok s ∧ allChain s = some [0, 1] ∧
      ∃ G, allChain s = some G ∧ G.Nodup ∧
        (s.m.all = none ↔ s.m.last = none) ∧
        s.m.all = G.head? ∧ s.m.last = G.getLast? ∧
        ∀ l, s.m.last = some l → (s.ents l).nextAll = none := by
  obtain ⟨s, h1, hr, hG, -⟩ := two_colliding_entries
  exact ⟨s, h1, hG, all_chain_head_and_tail s hr⟩

/-! ## Counters -/

theorem setCounts_ents (s : State) (e : Nat) (p a a2 : count) (i : Nat) :
    ((setCounts s e p a a2).ents i).nextHash = (s.ents i).nextHash ∧
    ((setCounts s e p a a2).ents i).nextAll = (s.ents i).nextAll ∧
    ((setCounts s e p a a2).ents i).stk = (s.ents i).stk ∧
    ((setCounts s e p a a2).ents i).tag = (s.ents i).tag := by
  unfold setCounts
  by_cases hi : i = e
  · subst hi; simp [setEnt]
  · simp [setEnt, hi]

theorem setCounts_keyOf (s : State) (e : Nat) (p a a2 : count) (i : Nat) :
    keyOf (setCounts s e p a a2) i = keyOf s i := by
  have h := setCounts_ents s e p a a2 i
  unfold keyOf entryStk
  rw [h.2.2.1, h.2.2.2]
  rfl

theorem Inv_setCounts {s : State} (hinv : Inv s) (e : Nat) (he : e < s.m.free.off)
    (p a a2 : count) : Inv (setCounts s e p a a2) := by
  have hf := fun i => setCounts_ents s e p a a2 i
  have hk := fun i => setCounts_keyOf s e p a a2 i
  refine
    { free_cap := hinv.free_cap
      free_top := hinv.free_top
      free_zero := ?_
      stk_cap := hinv.stk_cap
      stk_top := hinv.stk_top
      stk_len := hinv.stk_len
      all_eq := hinv.all_eq
      last_eq := hinv.last_eq
      nextAll_eq := ?_
      estk_cap := ?_
      estk_len := ?_
      estk_lim := ?_
      estk_sep := ?_
      key_inj := ?_
      bucket := ?_ }
  · intro i hi
    have hie : i ≠ e := by
      have : s.m.free.off ≤ i := hi
      omega
    have : (setCounts s e p a a2).ents i = s.ents i := by
      unfold setCounts
      simp [setEnt, hie]
    rw [this]
    exact hinv.free_zero i hi
  · intro i hi
    rw [(hf i).2.1]
    exact hinv.nextAll_eq i hi
  · intro i hi
    rw [(hf i).2.2.1]
    exact hinv.estk_cap i hi
  · intro i hi
    rw [(hf i).2.2.1]
    exact hinv.estk_len i hi
  · intro i hi
    rw [(hf i).2.2.1]
    exact hinv.estk_lim i hi
  · intro i j hij hj
    rw [(hf i).2.2.1, (hf j).2.2.1]
    exact hinv.estk_sep i j hij hj
  · intro i j hi hj hij
    rw [hk i, hk j] at hij
    exact hinv.key_inj i j hi hj hij
  · intro h
    obtain ⟨l, hl1, hl2, hl3⟩ := hinv.bucket h
    refine ⟨l, IsSeg.congr hl1 (fun i _ => (hf i).1), hl2, fun i => ?_⟩
    rw [hk i]
    exact hl3 i

theorem Inv_of_reachableC {s : State} (hr : ReachableC s) : Inv s := by
  induction hr with
  | empty => exact Inv_empty
  | lookup _ hL ih => exact (Lookup_post ih hL).inv
  | counts p a a2 _ hG he ih =>
    exact Inv_setCounts ih _ ((mem_allChain ih hG _).mp he) p a a2

/-- C18: in every map reached by `Lookup` calls interleaved with the caller storing arbitrary
`prev`, `acc`, `acc2` in entries of the global chain `G`: a `Lookup` of a stack of at most 1024
addresses returns, and every `Lookup` that returns leaves `prev`, `acc` and `acc2` of every
entry of `G` (the one returned on a hit included) as they were, and an entry it returns that
is not on `G`, that is one created by this call, has `prev`, `acc` and `acc2` all zero. -/
theorem lookup_keeps_counters (s : State) (hr : ReachableC s) (G : List Nat)
    (hG : allChain s = some G) (S : List Nat) (T : Nat) :
    (S.length ≤ 1024 → ∃ s' e, Lookup s S T = .ok (s', e)) ∧
    ∀ s' e, Lookup s S T = .ok (s', e) →
      (∀ i ∈ G, (s'.ents i).prev = (s.ents i).prev ∧ (s'.ents i).acc = (s.ents i).acc ∧
        (s'.ents i).acc2 = (s.ents i).acc2) ∧
      (e ∉ G →
        (s'.ents e).prev = ⟨0, 0⟩ ∧ (s'.ents e).acc = ⟨0, 0⟩ ∧ (s'.ents e).acc2 = ⟨0, 0⟩) := by
  have hinv := Inv_of_reachableC hr
  refine ⟨fun hS => Lookup_ok s S T hinv hS, ?_⟩
  intro s' e hL
  have hp := Lookup_post hinv hL
  constructor
  · intro i hi
    exact (hp.fields i ((mem_allChain hinv hG i).mp hi)).2.2
  · intro hne
    rcases hp.cases with ⟨he, -, -⟩ | ⟨he, -, hs⟩
    · exact absurd ((mem_allChain hinv hG e).mpr he) hne
    · rw [hs, he, addState_ents_new]
      exact ⟨rfl, rfl, rfl⟩

/-- Witness for C18: the entry for `([1, 2, 3], 0)` is given the counters `(5, 6)`, `(7, 8)`,
`(9, 10)`; looking the key up again returns and leaves them in place. -/
theorem lookup_keeps_counters_witness :
    ∃ s1, Lookup State.empty [1, 2, 3] 0 = .ok (s1, 0) ∧
      ((setCounts s1 0 ⟨5, 6⟩ ⟨7, 8⟩ ⟨9, 10⟩).ents 0).prev = ⟨5, 6⟩ ∧
      (∃ s' e, Lookup (setCounts s1 0 ⟨5, 6⟩ ⟨7, 8⟩ ⟨9, 10⟩) [1, 2, 3] 0 = .ok (s', e)) ∧
      ∀ s' e, Lookup (setCounts s1 0 ⟨5, 6⟩ ⟨7, 8⟩ ⟨9, 10⟩) [1, 2, 3] 0 = .ok (s', e) →
        (s'.ents 0).prev = ⟨5, 6⟩ ∧ (s'.ents 0).acc = ⟨7, 8⟩ ∧ (s'.ents 0).acc2 = ⟨9, 10⟩ := by
  have hL1 : Lookup State.empty [1, 2, 3] 0 =
      .ok (addState State.empty (hashOf [1, 2, 3] 0) [1, 2, 3] 0, 0) :=
    Lookup_miss State.empty [1, 2, 3] 0 Inv_empty (by decide)
      (fun i hi => absurd hi (Nat.not_lt_zero i))
  have hG1 : allChain (addState State.empty (hashOf [1, 2, 3] 0) [1, 2, 3] 0) = some [0] := by
    decide
  have hr : ReachableC
      (setCounts (addState State.empty (hashOf [1, 2, 3] 0) [1, 2, 3] 0) 0 ⟨5, 6⟩ ⟨7, 8⟩
        ⟨9, 10⟩) :=
    ReachableC.counts _ _ _ (ReachableC.lookup ReachableC.empty hL1) hG1 (by decide)
  have hG : allChain
      (setCounts (addState State.empty (hashOf [1, 2, 3] 0) [1, 2, 3] 0) 0 ⟨5, 6⟩ ⟨7, 8⟩
        ⟨9, 10⟩) = some [0] := by
    decide
  obtain ⟨h1, h2⟩ := lookup_keeps_counters _ hr [0] hG [1, 2, 3] 0
  refine ⟨_, hL1, by decide, h1 (by decide), ?_⟩
  intro s' e hL
  obtain ⟨h3, h4, h5⟩ := (h2 s' e hL).1 0 (by decide)
  exact ⟨h3.trans (by decide), h4.trans (by decide), h5.trans (by decide)⟩

end Pprof

/-! # Properties of `api.go` -/

namespace Pyroscope

/-- C10, what the code does: the session configuration `Start` builds does not depend on
`Config.ManualFlush`.  For every configuration the value built with the flag set equals the
value built with the flag cleared, and whenever one is built its upload rate is 10 seconds. -/
theorem start_session_config_ignores_manual_flush {P L U E : Type} (d : Defaults P L)
    (adhoc : Option String) (newRemote : RemoteConfig L → Except E U) (c : Config P L) :
    startSessionConfig d adhoc newRemote { c with ManualFlush := true } =
      startSessionConfig d adhoc newRemote { c with ManualFlush := false } ∧
    ∀ sc, startSessionConfig d adhoc newRemote { c with ManualFlush := true } = .ok sc →
      sc.UploadRate = 10 * Second := by
  constructor
  · rfl
  · intro sc hsc
    unfold startSessionConfig at hsc
    simp only at hsc
    split at hsc
    · cases hsc
    · cases hsc
      rfl

/-- C19: whenever `remote.NewRemote` succeeds on the remote configuration `Start` hands it,
`Start` builds a session configuration with: `ProfilingTypes` the default profile types when
`c.ProfileTypes` is empty and `c.ProfileTypes` otherwise; `SampleRate` the default sample rate
when `c.SampleRate` is 0 and `c.SampleRate` otherwise; a non-nil `Logger`, the no-op logger
when `c.Logger` is nil and `c.Logger` otherwise; `AppName`, `Tags` and `DisableGCRuns` copied
from `c`; `UploadRate` 10 seconds; and the uploader as `Upstream`. -/
theorem start_normalises_config {P L U E : Type} (d : Defaults P L) (adhoc : Option String)
    (newRemote : RemoteConfig L → Except E U) (c : Config P L) (u : U)
    (hu : newRemote (remoteConfig d adhoc c) = .ok u) :
    ∃ sc, startSessionConfig d adhoc newRemote c = .ok sc ∧
      sc.ProfilingTypes = (if c.ProfileTypes.length = 0 then d.DefaultProfileTypes
        else c.ProfileTypes) ∧
      sc.SampleRate = (if c.SampleRate = 0 then d.DefaultSampleRate else c.SampleRate) ∧
      sc.Logger.isSome = true ∧
      (c.Logger = none → sc.Logger = some d.noopLogger) ∧
      (∀ l, c.Logger = some l → sc.Logger = some l) ∧
      sc.AppName = c.ApplicationName ∧ sc.Tags = c.Tags ∧
      sc.DisableGCRuns = c.DisableGCRuns ∧ sc.UploadRate = 10 * Second ∧
      sc.Upstream = u := by
  have hrc : startSessionConfig d adhoc newRemote c =
      match newRemote (remoteConfig d adhoc c) with
      | .error err => .error err
      | .ok uploader =>
        .ok
          { Upstream := uploader
            Logger := (normalize d adhoc c).Logger
            AppName := (normalize d adhoc c).ApplicationName
            Tags := (normalize d adhoc c).Tags
            ProfilingTypes := (normalize d adhoc c).ProfileTypes
            DisableGCRuns := (normalize d adhoc c).DisableGCRuns
            SampleRate := (normalize d adhoc c).SampleRate
            UploadRate := 10 * Second } := rfl
  rw [hrc, hu]
  refine ⟨_, rfl, rfl, rfl, ?_, ?_, ?_, rfl, rfl, rfl, rfl, rfl⟩
  · show (normalize d adhoc c).Logger.isSome = true
    unfold normalize
    cases c.Logger <;> rfl
  · intro hn
    show (normalize d adhoc c).Logger = _
    unfold normalize
    simp only
    rw [hn]
  · intro l hl
    show (normalize d adhoc c).Logger = _
    unfold normalize
    simp only
    rw [hl]

/-- Witness for C19: the zero `Config` but for the application name, with defaults
`["cpu"]` and `100`, logger `7` as the no-op logger and a `NewRemote` that succeeds. -/
theorem start_normalises_config_witness :
    ∃ sc : SessionConfig String Nat Unit,
      startSessionConfig ⟨["cpu"], 100, 7⟩ none (fun _ => (.ok () : Except Unit Unit))
        ⟨"app", [], "", "", 0, none, [], false, false⟩ = .ok sc ∧
      sc.ProfilingTypes = ["cpu"] ∧ sc.SampleRate = 100 ∧ sc.Logger = some 7 ∧
      sc.AppName = "app" ∧ sc.UploadRate = 10 * Second := by
  obtain ⟨sc, h1, h2, h3, -, h5, -, h7, -, -, h10, -⟩ :=
    start_normalises_config (⟨["cpu"], 100, 7⟩ : Defaults String Nat) none
      (fun _ => (.ok () : Except Unit Unit)) ⟨"app", [], "", "", 0, none, [], false, false⟩ ()
      rfl
  exact ⟨sc, h1, h2, h3, h5 rfl, h7, h10⟩

end Pyroscope
